import Mathlib

/-!
# Manchester codec of IRremoteESP8266 (`src/ir_Manchester.cpp`)

A shallow embedding of `IRsend::sendManchester` and `IRrecv::decodeManchester`.

* The encoder's observable output is the ordered list of calls it makes on the
  sender object (`enableIROut`, `mark`, `space`).
* The decoder works on a `decode_results` record and reads its samples only
  through `getRClevel`, which is passed to the embedding as a parameter.
* Machine integers are natural numbers, reduced modulo `2 ^ 64` or `2 ^ 16`
  where the C++ arithmetic can wrap.
* Loops that the C++ text does not bound syntactically take a fuel argument.
-/

namespace Manchester

/-! ## Constants (lines 10-19) -/

def kManchesterMinSamples : Nat := 13

def kManchesterTick : Nat := 333

def kManchesterTolerance : Nat := 0

def kManchesterExcess : Nat := 0

def kManchesterDelta : Nat := 150

def kSpace : Int := 1

def kMark : Int := 0

def frequency : Nat := 38

def dutyCycle : Nat := 25

/-- Width of `uint64_t`, the value of `sizeof(data) * 8` on line 33. -/
def kDataBits : Nat := 64

/-! ## Encoder -/

/-- One call made by `sendManchester` on the sender object. -/
inductive Event where
  | enableIROut (freq duty : Nat)
  | mark (usec : Nat)
  | space (usec : Nat)
  deriving DecidableEq, Repr

/-- Ways in which a run of the encoder can fail to deliver a finished trace. -/
inductive Fault where
  /-- the fuel given to a loop ran out before the loop's own exit test did -/
  | outOfFuel
  /-- a shift whose amount lies outside `0..63`, which C++ leaves undefined -/
  | undefinedShift
  deriving DecidableEq, Repr

deriving instance DecidableEq for Except

/-- The C++ expression `x << s` on `unsigned long long`, the amount `s` being an `int`. -/
def shl64 (x : Nat) (s : Int) : Except Fault Nat :=
  if 0 ≤ s ∧ s < 64 then .ok ((x <<< s.toNat) % 2 ^ 64) else .error .undefinedShift

/-- The two pulses emitted for one bit (lines 42-48). -/
def bitPulses (data mask : Nat) : List Event :=
  if data &&& mask ≠ 0 then
    [.space kManchesterTick, .mark kManchesterTick]
  else
    [.mark kManchesterTick, .space kManchesterTick]

/-- The data loop `for (mask = ...; mask; mask >>= 1)` of lines 41-48, entered with
the current `mask`. -/
def sendData (data : Nat) : Nat → Nat → Except Fault (List Event)
  | 0, mask => if mask ≠ 0 then .error .outOfFuel else .ok []
  | fuel + 1, mask =>
    if mask ≠ 0 then
      match sendData data fuel (mask >>> 1) with
      | .ok rest => .ok (bitPulses data mask ++ rest)
      | .error e => .error e
    else .ok []

/-- One pass of the body of the outer loop (lines 40-50): the data bits, then the
footer gap. `kManchesterMinGap` is `kDefaultMessageGap`, a constant defined outside
`ir_Manchester.cpp`, so it is a parameter. A `uint64_t` mask is zero after at most 64 right
shifts, which is the fuel handed to the data loop. -/
def sendOnce (kManchesterMinGap data nbits : Nat) : Except Fault (List Event) :=
  match shl64 1 ((nbits : Int) - 1) with
  | .error e => .error e
  | .ok mask =>
    match sendData data kDataBits mask with
    | .error e => .error e
    | .ok pulses => .ok (pulses ++ [.space kManchesterMinGap])

/-- The outer loop `for (uint16_t i = 0; i <= repeat; i++)` of lines 39-51, entered
with the current `i`; the increment wraps at `2 ^ 16`. -/
def sendRepeats (kManchesterMinGap data nbits repeat_ : Nat) :
    Nat → Nat → Except Fault (List Event)
  | 0, i => if i ≤ repeat_ then .error .outOfFuel else .ok []
  | fuel + 1, i =>
    if i ≤ repeat_ then
      match sendOnce kManchesterMinGap data nbits with
      | .error e => .error e
      | .ok once =>
        match sendRepeats kManchesterMinGap data nbits repeat_ fuel ((i + 1) % 2 ^ 16) with
        | .error e => .error e
        | .ok rest => .ok (once ++ rest)
    else .ok []

/-- `IRsend::sendManchester` (lines 32-52): the trace of calls it makes. `fuel` bounds
the number of passes of the outer loop. -/
def sendManchester (kManchesterMinGap fuel data nbits repeat_ : Nat) :
    Except Fault (List Event) :=
  if nbits > kDataBits then .ok []
  else
    match sendRepeats kManchesterMinGap data nbits repeat_ fuel 0 with
    | .error e => .error e
    | .ok pulses => .ok (.enableIROut frequency dutyCycle :: pulses)

/-- The mark and space pulses of a trace, carrier set-up calls left out. -/
def pulsesOf (trace : List Event) : List Event :=
  trace.filter fun e =>
    match e with
    | .enableIROut _ _ => false
    | _ => true

/-! ## Decoder -/

/-- Tag written to `decode_type`. `decode_type_t` is declared outside `ir_Manchester.cpp`; only
the tag this decoder writes and the tag of a record that holds no decode are kept. -/
inductive decode_type_t where
  | UNKNOWN
  | MANCHESTER
  deriving DecidableEq, Repr

/-- Modelled from the spec: `decode_results`, declared outside `ir_Manchester.cpp`.
The output fields are the ones lines 111-116 assign; they hold the assigned
numbers as they are ("low 4 bits = one field, remaining high bits = a second field").
The capture buffer is "a stream of already-classified symbols": `rawbuf` lists, per
position, the level the timing model assigns to that sample (`kMark`, `kSpace`, or
any other number for "no match"), and `rawlen` is the sample count. -/
structure decode_results where
  decode_type : decode_type_t
  value : Nat
  address : Nat
  command : Nat
  bits : Nat
  repeat_ : Bool
  rawbuf : List Int
  rawlen : Nat
  deriving DecidableEq, Repr

/-- What one call `getRClevel(results, &offset, &used, ...)` hands back: the level it
returns and the values it leaves in `offset` and `used`. -/
structure RCLevel where
  level : Int
  offset : Nat
  used : Nat
  deriving DecidableEq, Repr

/-- Type of `IRrecv::getRClevel`, a member function defined outside `ir_Manchester.cpp`:
arguments `results, offset, used, bitTime, tolerance, excess, delta`. -/
abbrev RCReader := decode_results → Nat → Nat → Nat → Nat → Nat → Nat → RCLevel

/-- Local variables of `decodeManchester` while its data loop runs, with a count of
the `getRClevel` calls made so far. -/
structure LoopState where
  offset : Nat
  used : Nat
  data : Nat
  actual_bits : Nat
  reads : Nat
  deriving DecidableEq, Repr

/-- The two reads at the top of the loop body (lines 88-93), from cursor
`(offset, used)`: both results, in call order. -/
def readPair (getRC : RCReader) (results : decode_results) (offset used : Nat) :
    RCLevel × RCLevel :=
  let a := getRC results offset used kManchesterTick kManchesterTolerance
    kManchesterExcess kManchesterDelta
  let b := getRC results a.offset a.used kManchesterTick kManchesterTolerance
    kManchesterExcess kManchesterDelta
  (a, b)

/-- The data loop `for (; offset <= results->rawlen; actual_bits++)` of lines 87-103.
`data` is a `uint64_t` and `actual_bits` a `uint16_t`. -/
def dataLoop (getRC : RCReader) (results : decode_results) : Nat → LoopState → Option LoopState
  | 0, s => if s.offset ≤ results.rawlen then none else some s
  | fuel + 1, s =>
    if s.offset ≤ results.rawlen then
      let p := readPair getRC results s.offset s.used
      if p.1.level = kSpace ∧ p.2.level = kMark then
        dataLoop getRC results fuel
          { offset := p.2.offset, used := p.2.used,
            data := ((s.data <<< 1) % 2 ^ 64) ||| 1,
            actual_bits := (s.actual_bits + 1) % 2 ^ 16,
            reads := s.reads + 2 }
      else if p.1.level = kMark ∧ p.2.level = kSpace then
        dataLoop getRC results fuel
          { offset := p.2.offset, used := p.2.used,
            data := (s.data <<< 1) % 2 ^ 64,
            actual_bits := (s.actual_bits + 1) % 2 ^ 16,
            reads := s.reads + 2 }
      else
        some { s with offset := p.2.offset, used := p.2.used, reads := s.reads + 2 }
    else some s

/-- Result of a call of `decodeManchester`: the returned flag, the record behind the
`results` pointer afterwards, and the number of `getRClevel` calls made. -/
structure DecodeOutcome where
  ok : Bool
  results : decode_results
  reads : Nat
  deriving DecidableEq, Repr

/-- `IRrecv::decodeManchester` (lines 74-118). `kManchesterBits` is defined outside this
file, so it is a parameter, and so is `getRClevel`. `none` means the fuel given to the
data loop ran out. -/
def decodeManchester (kManchesterBits : Nat) (getRC : RCReader) (fuel : Nat)
    (results : decode_results) (offset nbits : Nat) (strict : Bool) : Option DecodeOutcome :=
  if results.rawlen ≤ kManchesterMinSamples + offset then
    some { ok := false, results := results, reads := 0 }
  else if strict = true ∧ nbits ≠ kManchesterBits then
    some { ok := false, results := results, reads := 0 }
  else
    match dataLoop getRC results fuel
        { offset := offset, used := 0, data := 0, actual_bits := 0, reads := 0 } with
    | none => none
    | some s =>
      if s.actual_bits < nbits then
        some { ok := false, results := results, reads := s.reads }
      else if strict = true ∧ s.actual_bits ≠ kManchesterBits then
        some { ok := false, results := results, reads := s.reads }
      else
        some
          { ok := true
            results :=
              { results with
                decode_type := .MANCHESTER
                value := s.data
                address := s.data &&& 0xF
                command := s.data >>> 4
                repeat_ := false
                bits := s.actual_bits }
            reads := s.reads }

/-- Modelled from the spec: `IRrecv::getRClevel`, defined outside `ir_Manchester.cpp`. The
decoder "consumes an ordered sequence of measured pulse classifications", "two at a
time per candidate bit", and "advances a cursor" over a source that keeps "a running
count of samples consumed": a call inside the buffer returns the classification stored
at `offset`, moves `offset` on by one and counts the sample in `used`. A call at or
past `rawlen` finds the carrier off: it returns `kSpace` and moves nothing. -/
def getRClevel : RCReader := fun results offset used _bitTime _tolerance _excess _delta =>
  if offset ≥ results.rawlen then
    { level := kSpace, offset := offset, used := used }
  else
    { level := results.rawbuf.getD offset (-1), offset := offset + 1,
      used := (used + 1) % 2 ^ 16 }

/-- Modelled from the spec: the timing model's `classify`, "parameterized by the
nominal tick length" and relying "solely on a fixed absolute delta": a pulse whose
length is within `kManchesterDelta` of one tick classifies as its own level, anything
else as "no match" (`-1`). -/
def classify (e : Event) : Int :=
  match e with
  | .mark usec =>
    if kManchesterTick ≤ usec + kManchesterDelta ∧ usec ≤ kManchesterTick + kManchesterDelta
    then kMark else -1
  | .space usec =>
    if kManchesterTick ≤ usec + kManchesterDelta ∧ usec ≤ kManchesterTick + kManchesterDelta
    then kSpace else -1
  | .enableIROut _ _ => -1

/-- A record that holds no decode yet, over the given classified samples. -/
def freshResults (symbols : List Int) : decode_results :=
  { decode_type := .UNKNOWN, value := 0, address := 0, command := 0, bits := 0,
    repeat_ := false, rawbuf := symbols, rawlen := symbols.length }

/-! ## Reference definitions the claims are compared with -/

/-- The pulse pair the spec gives for one bit: "if 1, emit (SPACE, tick) then
(MARK, tick); if 0, emit (MARK, tick) then (SPACE, tick)". -/
def bitPair (b : Bool) : List Event :=
  if b then [.space kManchesterTick, .mark kManchesterTick]
  else [.mark kManchesterTick, .space kManchesterTick]

/-- The pulse pairs for the low `n` bits of `data`, bit `n - 1` first, bit `0` last. -/
def manchesterBits (data : Nat) : Nat → List Event
  | 0 => []
  | n + 1 => bitPair (data.testBit n) ++ manchesterBits data n

/-- One transmission `T`: the pairs of the `nbits` bits, most significant first,
followed by one gap space. -/
def transmission (kManchesterMinGap data nbits : Nat) : List Event :=
  manchesterBits data nbits ++ [.space kManchesterMinGap]

/-- The pulse sequence of `count` identical transmissions. -/
def transmissions (kManchesterMinGap data nbits : Nat) : Nat → List Event
  | 0 => []
  | count + 1 =>
    transmission kManchesterMinGap data nbits ++ transmissions kManchesterMinGap data nbits count

/-- The cursor `(offset, used)` left behind by `j` successive pair reads that start at
cursor `(offset, used)`. -/
def cursorAfter (getRC : RCReader) (results : decode_results) (offset used : Nat) :
    Nat → Nat × Nat
  | 0 => (offset, used)
  | j + 1 =>
    let c := cursorAfter getRC results offset used j
    let p := readPair getRC results c.1 c.2
    (p.2.offset, p.2.used)

/-- The pair of levels `(levelA, levelB)` of pair read number `j` (counted from 0). -/
def pairAt (getRC : RCReader) (results : decode_results) (offset used j : Nat) : Int × Int :=
  let c := cursorAfter getRC results offset used j
  let p := readPair getRC results c.1 c.2
  (p.1.level, p.2.level)

/-- A valid Manchester pair: "exactly (SPACE, MARK) or (MARK, SPACE)". -/
def validPair (p : Int × Int) : Prop :=
  (p.1 = kSpace ∧ p.2 = kMark) ∨ (p.1 = kMark ∧ p.2 = kSpace)

instance (p : Int × Int) : Decidable (validPair p) := by
  unfold validPair
  infer_instance

/-- The bit a pair stands for: 1 for (SPACE, MARK), otherwise 0. -/
def pairBit (p : Int × Int) : Nat :=
  if p.1 = kSpace ∧ p.2 = kMark then 1 else 0

/-- Pair read number `j` takes place (the cursor has not passed `rawlen`) and reads a
valid pair. -/
def decodesAt (getRC : RCReader) (results : decode_results) (offset used j : Nat) : Prop :=
  (cursorAfter getRC results offset used j).1 ≤ results.rawlen ∧
    validPair (pairAt getRC results offset used j)

instance (getRC : RCReader) (results : decode_results) (offset used j : Nat) :
    Decidable (decodesAt getRC results offset used j) := by
  unfold decodesAt
  infer_instance

/-- Exactly `k` consecutive valid pairs are read from the start cursor: pair reads
`0 .. k - 1` decode a bit, and number `k` is an invalid pair or lies past the end of the
samples. -/
def leadingValid (getRC : RCReader) (results : decode_results) (offset k : Nat) : Prop :=
  (∀ j, j < k → decodesAt getRC results offset 0 j) ∧ ¬ decodesAt getRC results offset 0 k

instance (getRC : RCReader) (results : decode_results) (offset k : Nat) :
    Decidable (leadingValid getRC results offset k) := by
  unfold leadingValid
  infer_instance

/-- The bits `b_0, b_1, ...` of the pairs read from the start cursor. -/
def bitAt (getRC : RCReader) (results : decode_results) (offset used : Nat) (j : Nat) : Nat :=
  pairBit (pairAt getRC results offset used j)

/-- The number whose binary digits are `b 0 .. b (k - 1)`, most significant first:
the sum of `b i * 2 ^ (k - 1 - i)`. -/
def msbFirst (b : Nat → Nat) (k : Nat) : Nat :=
  Finset.sum (Finset.range k) fun i => b i * 2 ^ (k - 1 - i)

/-- The accumulator rule of lines 95 and 98 without the 64-bit bound:
"payload = payload<<1 | b", applied to the bits `b 0 .. b (k - 1)` from 0. -/
def shiftIn (b : Nat → Nat) : Nat → Nat
  | 0 => 0
  | k + 1 => (shiftIn b k <<< 1) ||| b k

/-- The record a trace is decoded from: the first `count` pulses of the trace, each
classified by the timing model, as the whole sample buffer. -/
def captured (trace : List Event) (count : Nat) : decode_results :=
  freshResults (((pulsesOf trace).take count).map classify)


/-! ## The encoder's trace up to the point a run stops -/

/-- What a run of the encoder has emitted when it ends or when its fuel is used up, and
the fault that ended it, if any (`none`: the run finished). -/
structure Run where
  emitted : List Event
  fault : Option Fault
  deriving DecidableEq, Repr

/-- The outer loop of lines 39-51 as in `sendRepeats`, keeping the pulses of the passes
completed before a fault. A pass that faults does so at the shift that opens its data
loop, before its first pulse. -/
def sendRepeatsRun (kManchesterMinGap data nbits repeat_ : Nat) : Nat → Nat → Run
  | 0, i => if i ≤ repeat_ then { emitted := [], fault := some .outOfFuel }
    else { emitted := [], fault := none }
  | fuel + 1, i =>
    if i ≤ repeat_ then
      match sendOnce kManchesterMinGap data nbits with
      | .error e => { emitted := [], fault := some e }
      | .ok once =>
        let rest := sendRepeatsRun kManchesterMinGap data nbits repeat_ fuel ((i + 1) % 2 ^ 16)
        { emitted := once ++ rest.emitted, fault := rest.fault }
    else { emitted := [], fault := none }

/-- `IRsend::sendManchester` (lines 32-52) as in `sendManchester`, keeping what was
emitted before a fault: `enableIROut` on line 37 is called before the loop is entered. -/
def sendManchesterRun (kManchesterMinGap fuel data nbits repeat_ : Nat) : Run :=
  if nbits > kDataBits then { emitted := [], fault := none }
  else
    let rest := sendRepeatsRun kManchesterMinGap data nbits repeat_ fuel 0
    { emitted := .enableIROut frequency dutyCycle :: rest.emitted, fault := rest.fault }

/-- The result `sendManchester` gives for a run: the trace when the run finished, the
fault otherwise. -/
def Run.result (r : Run) : Except Fault (List Event) :=
  match r.fault with
  | none => .ok r.emitted
  | some e => .error e

/-! ## Measures of a trace -/

/-- The event is a `mark` call. -/
def isMark (e : Event) : Bool :=
  match e with
  | .mark _ => true
  | _ => false

/-- The event is a `space` call. -/
def isSpace (e : Event) : Bool :=
  match e with
  | .space _ => true
  | _ => false

/-- The event is an `enableIROut` call. -/
def isEnable (e : Event) : Bool :=
  match e with
  | .enableIROut _ _ => true
  | _ => false

/-- Total carrier-on time of a trace: the sum of the lengths of its marks. -/
def carrierOnTime : List Event → Nat
  | [] => 0
  | .mark usec :: rest => usec + carrierOnTime rest
  | _ :: rest => carrierOnTime rest

/-! ## Sample buffers used at concrete inputs -/

/-- Sixteen classified samples: seven valid pairs, carrying the bits 1 0 1 0 1 1 0,
followed by the invalid pair (MARK, MARK). -/
def sevenBitSymbols : List Int :=
  [kSpace, kMark, kMark, kSpace, kSpace, kMark, kMark, kSpace, kSpace, kMark, kSpace, kMark,
   kMark, kSpace, kMark, kMark]

/-- Fourteen classified samples, all of them valid pairs: the bits 1 0 1 0 1 1 0. -/
def fourteenSymbols : List Int :=
  [kSpace, kMark, kMark, kSpace, kSpace, kMark, kMark, kSpace, kSpace, kMark, kSpace, kMark,
   kMark, kSpace]

/-- A record still holding an earlier decode (value 0x2A, 6 bits), over the sixteen
samples of `sevenBitSymbols`. -/
def staleResults : decode_results :=
  { decode_type := .MANCHESTER, value := 0x2A, address := 0xA, command := 0x2, bits := 6,
    repeat_ := false, rawbuf := sevenBitSymbols, rawlen := 16 }

/-- The outcome of decoding `sevenBitSymbols` from offset 0: the bits 1 0 1 0 1 1 0 give
the value 0x56, split into address 0x6 and command 0x5. -/
def sevenBitDecoded : DecodeOutcome :=
  { ok := true
    results :=
      { decode_type := .MANCHESTER, value := 0x56, address := 0x6, command := 0x5, bits := 7,
        repeat_ := false, rawbuf := sevenBitSymbols, rawlen := 16 }
    reads := 16 }

/-- The trace of `sendManchester(0x5, 4, 0)` with a gap of 100000: carrier set-up, the
pairs for the bits 0 1 0 1, and the gap. -/
def fourBitTrace : List Event :=
  [.enableIROut 38 25, .mark 333, .space 333, .space 333, .mark 333, .mark 333, .space 333,
   .space 333, .mark 333, .space 100000]

/-- Six classified samples: the valid pairs for the bits 1 1, then the invalid pair
(MARK, MARK). -/
def shortStream : List Int :=
  [kSpace, kMark, kSpace, kMark, kMark, kMark]

/-- The six samples of `shortStream` followed by fourteen more. -/
def longStream : List Int :=
  shortStream ++
    [kSpace, kMark, kSpace, kMark, kSpace, kMark, kSpace, kMark, kSpace, kMark, kSpace, kMark,
     kSpace, kMark]

/-- The sixteen samples of `sevenBitSymbols` followed by one more valid pair. -/
def eighteenSymbols : List Int :=
  sevenBitSymbols ++ [kSpace, kMark]

/-- Fifteen classified samples: the fourteen of `fourteenSymbols` and a final MARK. -/
def fifteenSymbols : List Int :=
  fourteenSymbols ++ [kMark]

/-- One pair (SPACE, MARK) followed by `zeros` pairs (MARK, SPACE): the bit 1 and then
`zeros` bits 0. -/
def oneThenZeros : Nat → List Int
  | 0 => [kSpace, kMark]
  | zeros + 1 => oneThenZeros zeros ++ [kMark, kSpace]

/-- The outcome of decoding `oneThenZeros 64` from offset 0: 65 bits are counted and the
leading 1 has left the 64-bit accumulator. -/
def sixtyFiveBitDecoded : DecodeOutcome :=
  { ok := true
    results :=
      { decode_type := .MANCHESTER, value := 0, address := 0, command := 0, bits := 65,
        repeat_ := false, rawbuf := oneThenZeros 64, rawlen := 130 }
    reads := 132 }

/-! ## Encoder lemmas -/

theorem shl64_one (nbits : Nat) (h1 : 1 ≤ nbits) (h64 : nbits ≤ 64) :
    shl64 1 ((nbits : Int) - 1) = .ok (2 ^ (nbits - 1)) := by
  have hs : ((nbits : Int) - 1).toNat = nbits - 1 := by omega
  have hlt : 2 ^ (nbits - 1) < 2 ^ 64 := Nat.pow_lt_pow_right (by decide) (by omega)
  unfold shl64
  rw [if_pos (by omega), hs, Nat.one_shiftLeft, Nat.mod_eq_of_lt hlt]

theorem shl64_zero_width : shl64 1 (((0 : Nat) : Int) - 1) = .error .undefinedShift := by
  decide

theorem bitPulses_two_pow (data i : Nat) :
    bitPulses data (2 ^ i) = bitPair (data.testBit i) := by
  unfold bitPulses bitPair
  rw [Nat.and_two_pow]
  cases h : data.testBit i <;> simp

theorem sendData_two_pow (data : Nat) :
    ∀ (i fuel : Nat), i < fuel → sendData data fuel (2 ^ i) = .ok (manchesterBits data (i + 1)) := by
  intro i
  induction i with
  | zero =>
    intro fuel hf
    obtain ⟨f, rfl⟩ : ∃ f, fuel = f + 1 := ⟨fuel - 1, by omega⟩
    have h0 : sendData data f 0 = .ok [] := by cases f <;> simp [sendData]
    have hb : bitPulses data 1 = bitPair (data.testBit 0) := by
      simpa using bitPulses_two_pow data 0
    have hs : 1 >>> 1 = 0 := by decide
    rw [Nat.pow_zero, sendData, if_pos (by decide), hs, h0, hb]
    rfl
  | succ i ih =>
    intro fuel hf
    obtain ⟨f, rfl⟩ : ∃ f, fuel = f + 1 := ⟨fuel - 1, by omega⟩
    have hshift : (2 ^ (i + 1)) >>> 1 = 2 ^ i := by
      rw [Nat.shiftRight_eq_div_pow, Nat.pow_succ]
      simp
    have hne : (2 ^ (i + 1) : Nat) ≠ 0 := by positivity
    rw [sendData, if_pos hne, hshift, ih f (by omega), bitPulses_two_pow]
    rfl

theorem sendOnce_eq (gap data nbits : Nat) (h1 : 1 ≤ nbits) (h64 : nbits ≤ 64) :
    sendOnce gap data nbits = .ok (transmission gap data nbits) := by
  unfold sendOnce
  rw [shl64_one nbits h1 h64]
  have h := sendData_two_pow data (nbits - 1) kDataBits (by unfold kDataBits; omega)
  rw [show nbits - 1 + 1 = nbits by omega] at h
  simp only [h]
  rfl

theorem sendRepeats_eq (gap data nbits repeat_ : Nat) (h1 : 1 ≤ nbits) (h64 : nbits ≤ 64)
    (hr : repeat_ < 65535) :
    ∀ (count fuel i : Nat), i + count = repeat_ + 1 → count ≤ fuel →
      sendRepeats gap data nbits repeat_ fuel i = .ok (transmissions gap data nbits count) := by
  intro count
  induction count with
  | zero =>
    intro fuel i hi _
    have hgt : ¬ i ≤ repeat_ := by omega
    cases fuel <;> simp [sendRepeats, hgt, transmissions]
  | succ count ih =>
    intro fuel i hi hf
    obtain ⟨f, rfl⟩ : ∃ f, fuel = f + 1 := ⟨fuel - 1, by omega⟩
    have hle : i ≤ repeat_ := by omega
    have hwrap : (i + 1) % 2 ^ 16 = i + 1 := Nat.mod_eq_of_lt (by norm_num; omega)
    rw [sendRepeats, if_pos hle, sendOnce_eq gap data nbits h1 h64, hwrap]
    simp only [ih f (i + 1) (by omega) (by omega)]
    rfl

/-- For `1 ≤ nbits ≤ 64` and `repeat < 65535` the encoder finishes, and its trace is the
carrier set-up followed by `repeat + 1` copies of the transmission `T`. -/
theorem sendManchester_eq (gap fuel data nbits repeat_ : Nat) (h1 : 1 ≤ nbits)
    (h64 : nbits ≤ 64) (hr : repeat_ < 65535) (hf : repeat_ < fuel) :
    sendManchester gap fuel data nbits repeat_ =
      .ok (.enableIROut frequency dutyCycle :: transmissions gap data nbits (repeat_ + 1)) := by
  unfold sendManchester
  rw [if_neg (by unfold kDataBits; omega)]
  simp only [sendRepeats_eq gap data nbits repeat_ h1 h64 hr (repeat_ + 1) fuel 0 (by omega)
    (by omega)]

/-- With `repeat = 65535` the loop test `i <= repeat` holds for every 16-bit `i`: no
amount of fuel lets the outer loop finish. -/
theorem sendRepeats_max_repeat (gap data nbits : Nat) (h1 : 1 ≤ nbits) (h64 : nbits ≤ 64) :
    ∀ (fuel i : Nat), i < 2 ^ 16 →
      sendRepeats gap data nbits 65535 fuel i = .error .outOfFuel := by
  intro fuel
  induction fuel with
  | zero =>
    intro i hi
    have : i ≤ 65535 := by norm_num at hi; omega
    simp [sendRepeats, this]
  | succ f ih =>
    intro i hi
    have hle : i ≤ 65535 := by norm_num at hi; omega
    rw [sendRepeats, if_pos hle, sendOnce_eq gap data nbits h1 h64]
    simp only [ih ((i + 1) % 2 ^ 16) (Nat.mod_lt _ (by norm_num))]

/-! ## Decoder lemmas, for every reader -/

theorem shl_or_one (d : Nat) : (d <<< 1) ||| 1 = 2 * d + 1 := by
  have h := Nat.mul_add_lt_is_or (i := 1) (b := 1) (by decide) d
  rw [Nat.shiftLeft_eq, Nat.pow_one, Nat.mul_comm d 2]
  rw [Nat.pow_one] at h
  exact h.symm

theorem shl_one (d : Nat) : d <<< 1 = 2 * d := by
  rw [Nat.shiftLeft_eq, Nat.pow_one, Nat.mul_comm]

theorem shl_mod_or_one (d : Nat) : ((d <<< 1) % 2 ^ 64) ||| 1 = (2 * d + 1) % 2 ^ 64 := by
  have h1 : (d <<< 1) % 2 ^ 64 = 2 * (d % 2 ^ 63) := by
    rw [shl_one]
    norm_num
    omega
  have h2 := Nat.mul_add_lt_is_or (i := 1) (b := 1) (by decide) (d % 2 ^ 63)
  rw [Nat.pow_one] at h2
  rw [h1, ← h2]
  norm_num
  omega

theorem cursorAfter_succ_left (getRC : RCReader) (results : decode_results) (offset used : Nat) :
    ∀ j, cursorAfter getRC results offset used (j + 1) =
      cursorAfter getRC results (readPair getRC results offset used).2.offset
        (readPair getRC results offset used).2.used j := by
  intro j
  induction j with
  | zero => rfl
  | succ j ih =>
    rw [cursorAfter, ih]
    rfl

theorem pairAt_succ_left (getRC : RCReader) (results : decode_results) (offset used j : Nat) :
    pairAt getRC results offset used (j + 1) =
      pairAt getRC results (readPair getRC results offset used).2.offset
        (readPair getRC results offset used).2.used j := by
  unfold pairAt
  rw [cursorAfter_succ_left]

theorem decodesAt_succ_left (getRC : RCReader) (results : decode_results) (offset used j : Nat) :
    decodesAt getRC results offset used (j + 1) ↔
      decodesAt getRC results (readPair getRC results offset used).2.offset
        (readPair getRC results offset used).2.used j := by
  unfold decodesAt
  rw [cursorAfter_succ_left, pairAt_succ_left]

theorem msbFirst_succ (b : Nat → Nat) (k : Nat) :
    msbFirst b (k + 1) = b 0 * 2 ^ k + msbFirst (fun i => b (i + 1)) k := by
  unfold msbFirst
  rw [Finset.sum_range_succ', Nat.add_comm]
  congr 1
  apply Finset.sum_congr rfl
  intro i hi
  have : i < k := Finset.mem_range.mp hi
  congr 2
  omega

theorem msbFirst_lt (b : Nat → Nat) (hb : ∀ i, b i ≤ 1) : ∀ k, msbFirst b k < 2 ^ k := by
  intro k
  induction k generalizing b with
  | zero => simp [msbFirst]
  | succ k ih =>
    rw [msbFirst_succ]
    have h1 := ih (fun i => b (i + 1)) (fun i => hb (i + 1))
    have h2 : b 0 * 2 ^ k ≤ 2 ^ k := by
      have := Nat.mul_le_mul_right (2 ^ k) (hb 0)
      simpa using this
    rw [Nat.pow_succ]
    omega

theorem pairBit_le_one (p : Int × Int) : pairBit p ≤ 1 := by
  unfold pairBit
  split <;> simp

theorem accumulate_mod (d b k m : Nat) :
    ((2 * d + b) % 2 ^ 64 * 2 ^ k + m) % 2 ^ 64 = (d * 2 ^ (k + 1) + (b * 2 ^ k + m)) % 2 ^ 64 := by
  have h : (2 * d + b) % 2 ^ 64 * 2 ^ k + m ≡ (2 * d + b) * 2 ^ k + m [MOD 2 ^ 64] :=
    Nat.ModEq.add_right m (Nat.ModEq.mul_right (2 ^ k) (Nat.mod_modEq _ _))
  have e : (2 * d + b) * 2 ^ k + m = d * 2 ^ (k + 1) + (b * 2 ^ k + m) := by ring
  rw [e] at h
  exact h

/-- What the data loop leaves behind when exactly `k` valid pairs are read from the
state's cursor: the accumulator holds the `k` bits shifted in after the old contents, the
bit counter has advanced by `k`, and `2 * k` reads were made, plus two for the pair that
stopped the loop when the loop test still held. -/
theorem dataLoop_run (getRC : RCReader) (results : decode_results) :
    ∀ (k fuel : Nat) (s : LoopState), s.data < 2 ^ 64 → s.actual_bits < 2 ^ 16 →
      (∀ j, j < k → decodesAt getRC results s.offset s.used j) →
      ¬ decodesAt getRC results s.offset s.used k → k < fuel →
      ∃ s1, dataLoop getRC results fuel s = some s1 ∧
        s1.data = (s.data * 2 ^ k + msbFirst (bitAt getRC results s.offset s.used) k) % 2 ^ 64 ∧
        s1.actual_bits = (s.actual_bits + k) % 2 ^ 16 ∧
        s1.reads = s.reads + 2 * k +
          (if (cursorAfter getRC results s.offset s.used k).1 ≤ results.rawlen then 2 else 0) := by
  intro k
  induction k with
  | zero =>
    intro fuel s hd hb _ hstop hf
    obtain ⟨f, rfl⟩ : ∃ f, fuel = f + 1 := ⟨fuel - 1, by omega⟩
    have hd1 : s.data % 2 ^ 64 = s.data := Nat.mod_eq_of_lt hd
    have hb1 : s.actual_bits % 2 ^ 16 = s.actual_bits := Nat.mod_eq_of_lt hb
    by_cases hle : s.offset ≤ results.rawlen
    · have hinv : ¬ validPair (pairAt getRC results s.offset s.used 0) := fun hv => hstop ⟨hle, hv⟩
      have h1 : ¬ ((readPair getRC results s.offset s.used).1.level = kSpace ∧
          (readPair getRC results s.offset s.used).2.level = kMark) := fun h => hinv (Or.inl h)
      have h2 : ¬ ((readPair getRC results s.offset s.used).1.level = kMark ∧
          (readPair getRC results s.offset s.used).2.level = kSpace) := fun h => hinv (Or.inr h)
      refine ⟨{ s with
          offset := (readPair getRC results s.offset s.used).2.offset,
          used := (readPair getRC results s.offset s.used).2.used,
          reads := s.reads + 2 }, ?_, ?_, ?_, ?_⟩
      · rw [dataLoop, if_pos hle]
        simp only [if_neg h1, if_neg h2]
      · simp only [msbFirst, Finset.range_zero, Finset.sum_empty, Nat.pow_zero, Nat.mul_one,
          Nat.add_zero]
        exact hd1.symm
      · exact hb1.symm
      · simp only [cursorAfter, if_pos hle, Nat.mul_zero, Nat.add_zero]
    · refine ⟨s, by rw [dataLoop, if_neg hle], ?_, ?_, ?_⟩
      · simp only [msbFirst, Finset.range_zero, Finset.sum_empty, Nat.pow_zero, Nat.mul_one,
          Nat.add_zero]
        exact hd1.symm
      · exact hb1.symm
      · simp only [cursorAfter, if_neg hle, Nat.mul_zero, Nat.add_zero]
  | succ k ih =>
    intro fuel s hd hb hall hstop hf
    obtain ⟨f, rfl⟩ : ∃ f, fuel = f + 1 := ⟨fuel - 1, by omega⟩
    have h0 := hall 0 (by omega)
    have hle : s.offset ≤ results.rawlen := h0.1
    have hv : validPair (pairAt getRC results s.offset s.used 0) := h0.2
    have hall1 : ∀ j, j < k → decodesAt getRC results
        (readPair getRC results s.offset s.used).2.offset
        (readPair getRC results s.offset s.used).2.used j := fun j hj =>
      (decodesAt_succ_left getRC results s.offset s.used j).mp (hall (j + 1) (by omega))
    have hstop1 : ¬ decodesAt getRC results
        (readPair getRC results s.offset s.used).2.offset
        (readPair getRC results s.offset s.used).2.used k := fun h =>
      hstop ((decodesAt_succ_left getRC results s.offset s.used k).mpr h)
    have hbits : ∀ i, bitAt getRC results s.offset s.used (i + 1) =
        bitAt getRC results (readPair getRC results s.offset s.used).2.offset
          (readPair getRC results s.offset s.used).2.used i := fun i => by
      unfold bitAt
      rw [pairAt_succ_left]
    have hcur := cursorAfter_succ_left getRC results s.offset s.used k
    have hmsb := msbFirst_succ (bitAt getRC results s.offset s.used) k
    simp only [hbits] at hmsb
    by_cases h1 : (readPair getRC results s.offset s.used).1.level = kSpace ∧
        (readPair getRC results s.offset s.used).2.level = kMark
    · have hb0 : bitAt getRC results s.offset s.used 0 = 1 := by
        unfold bitAt pairBit pairAt
        exact if_pos h1
      obtain ⟨s1, hrun, hdata, hcount, hreads⟩ := ih f
        { offset := (readPair getRC results s.offset s.used).2.offset,
          used := (readPair getRC results s.offset s.used).2.used,
          data := ((s.data <<< 1) % 2 ^ 64) ||| 1,
          actual_bits := (s.actual_bits + 1) % 2 ^ 16,
          reads := s.reads + 2 }
        (by rw [shl_mod_or_one]; exact Nat.mod_lt _ (by positivity))
        (Nat.mod_lt _ (by positivity)) hall1 hstop1 (by omega)
      refine ⟨s1, ?_, ?_, ?_, ?_⟩
      · rw [dataLoop, if_pos hle]
        simp only [if_pos h1]
        exact hrun
      · rw [hdata, hmsb, hb0]
        simp only [shl_mod_or_one]
        exact accumulate_mod s.data 1 k _
      · rw [hcount]
        simp only []
        omega
      · rw [hreads, hcur]
        simp only []
        omega
    · have h2 : (readPair getRC results s.offset s.used).1.level = kMark ∧
          (readPair getRC results s.offset s.used).2.level = kSpace := by
        rcases hv with h | h
        · exact absurd h h1
        · exact h
      have hb0 : bitAt getRC results s.offset s.used 0 = 0 := by
        unfold bitAt pairBit pairAt
        exact if_neg h1
      obtain ⟨s1, hrun, hdata, hcount, hreads⟩ := ih f
        { offset := (readPair getRC results s.offset s.used).2.offset,
          used := (readPair getRC results s.offset s.used).2.used,
          data := (s.data <<< 1) % 2 ^ 64,
          actual_bits := (s.actual_bits + 1) % 2 ^ 16,
          reads := s.reads + 2 }
        (Nat.mod_lt _ (by positivity)) (Nat.mod_lt _ (by positivity)) hall1 hstop1 (by omega)
      refine ⟨s1, ?_, ?_, ?_, ?_⟩
      · rw [dataLoop, if_pos hle]
        simp only [if_neg h1, if_pos h2]
        exact hrun
      · rw [hdata, hmsb, hb0]
        simp only [shl_one]
        have := accumulate_mod s.data 0 k
          (msbFirst (bitAt getRC results (readPair getRC results s.offset s.used).2.offset
            (readPair getRC results s.offset s.used).2.used) k)
        simpa using this
      · rw [hcount]
        simp only []
        omega
      · rw [hreads, hcur]
        simp only []
        omega

/-! ## The reader modelled from the spec -/

theorem getRClevel_inside (results : decode_results) (offset used a b c d : Nat)
    (h : offset < results.rawlen) :
    getRClevel results offset used a b c d =
      { level := results.rawbuf.getD offset (-1), offset := offset + 1,
        used := (used + 1) % 2 ^ 16 } := by
  unfold getRClevel
  rw [if_neg (by omega)]

theorem getRClevel_past_end (results : decode_results) (offset used a b c d : Nat)
    (h : results.rawlen ≤ offset) :
    getRClevel results offset used a b c d =
      { level := kSpace, offset := offset, used := used } := by
  unfold getRClevel
  rw [if_pos h]

theorem readPair_inside (results : decode_results) (offset used : Nat)
    (h : offset + 2 ≤ results.rawlen) :
    readPair getRClevel results offset used =
      ({ level := results.rawbuf.getD offset (-1), offset := offset + 1,
         used := (used + 1) % 2 ^ 16 },
       { level := results.rawbuf.getD (offset + 1) (-1), offset := offset + 2,
         used := ((used + 1) % 2 ^ 16 + 1) % 2 ^ 16 }) := by
  unfold readPair
  simp only [getRClevel_inside results offset used _ _ _ _ (by omega)]
  rw [getRClevel_inside results (offset + 1) _ _ _ _ _ (by omega)]

theorem readPair_past_end (results : decode_results) (offset used : Nat)
    (h : results.rawlen ≤ offset) :
    readPair getRClevel results offset used =
      ({ level := kSpace, offset := offset, used := used },
       { level := kSpace, offset := offset, used := used }) := by
  unfold readPair
  simp only [getRClevel_past_end results offset used _ _ _ _ h]

theorem cursorAfter_getRClevel (results : decode_results) (offset used : Nat) :
    ∀ j, offset + 2 * j ≤ results.rawlen →
      (cursorAfter getRClevel results offset used j).1 = offset + 2 * j := by
  intro j
  induction j with
  | zero => intro _; rfl
  | succ j ih =>
    intro h
    have hj := ih (by omega)
    rw [cursorAfter]
    simp only []
    rw [readPair_inside results _ _ (by rw [hj]; omega), hj]
    simp only []
    omega

theorem pairAt_getRClevel (results : decode_results) (offset used j : Nat)
    (h : offset + 2 * j + 2 ≤ results.rawlen) :
    pairAt getRClevel results offset used j =
      (results.rawbuf.getD (offset + 2 * j) (-1),
       results.rawbuf.getD (offset + 2 * j + 1) (-1)) := by
  have hj := cursorAfter_getRClevel results offset used j (by omega)
  unfold pairAt
  simp only []
  rw [readPair_inside results _ _ (by rw [hj]; omega), hj]

theorem pairAt_getRClevel_at_end (results : decode_results) (offset used j : Nat)
    (h : offset + 2 * j = results.rawlen) :
    pairAt getRClevel results offset used j = (kSpace, kSpace) := by
  have hj := cursorAfter_getRClevel results offset used j (by omega)
  unfold pairAt
  simp only []
  rw [readPair_past_end results _ _ (by rw [hj]; omega)]

theorem not_validPair_same (x : Int) : ¬ validPair (x, x) := by
  unfold validPair kSpace kMark
  simp only []
  omega

/-- A valid pair read by the modelled reader moves the cursor forward, and no read
moves it beyond `rawlen`. -/
theorem readPair_getRClevel_advance (results : decode_results) (offset used : Nat)
    (hv : validPair ((readPair getRClevel results offset used).1.level,
      (readPair getRClevel results offset used).2.level)) :
    offset + 1 ≤ (readPair getRClevel results offset used).2.offset := by
  by_cases h : results.rawlen ≤ offset
  · rw [readPair_past_end results offset used h] at hv
    exact absurd hv (not_validPair_same kSpace)
  · unfold readPair
    simp only [getRClevel_inside results offset used _ _ _ _ (by omega)]
    unfold getRClevel
    split <;> simp

theorem readPair_getRClevel_bound (results : decode_results) (offset used : Nat)
    (h : offset ≤ results.rawlen) :
    (readPair getRClevel results offset used).2.offset ≤ results.rawlen := by
  by_cases h1 : results.rawlen ≤ offset
  · rw [readPair_past_end results offset used h1]
    exact h
  · by_cases h2 : offset + 2 ≤ results.rawlen
    · rw [readPair_inside results offset used h2]
      exact h2
    · unfold readPair
      simp only [getRClevel_inside results offset used _ _ _ _ (by omega)]
      rw [getRClevel_past_end results (offset + 1) _ _ _ _ _ (by omega)]
      simp only []
      omega

theorem cursorAfter_getRClevel_bound (results : decode_results) (offset used : Nat)
    (h : offset ≤ results.rawlen) :
    ∀ j, (cursorAfter getRClevel results offset used j).1 ≤ results.rawlen := by
  intro j
  induction j with
  | zero => exact h
  | succ j ih =>
    rw [cursorAfter]
    exact readPair_getRClevel_bound results _ _ ih

theorem cursorAfter_getRClevel_lower (results : decode_results) (offset used : Nat) :
    ∀ j, (∀ i, i < j → decodesAt getRClevel results offset used i) →
      offset + j ≤ (cursorAfter getRClevel results offset used j).1 := by
  intro j
  induction j with
  | zero => intro _; exact Nat.le_refl _
  | succ j ih =>
    intro hall
    have hj := ih (fun i hi => hall i (by omega))
    have hv := (hall j (by omega)).2
    have hadv := readPair_getRClevel_advance results
      (cursorAfter getRClevel results offset used j).1
      (cursorAfter getRClevel results offset used j).2 hv
    rw [cursorAfter]
    simp only []
    omega

/-- With the modelled reader the loop always stops: from every start offset some number
`k ≤ rawlen` of leading valid pairs is read and the next pair read ends the loop. -/
theorem getRClevel_leadingValid_exists (results : decode_results) (offset : Nat) :
    ∃ k, k ≤ results.rawlen ∧ leadingValid getRClevel results offset k := by
  have hex : ∃ j, ¬ decodesAt getRClevel results offset 0 j := by
    by_contra hno
    have hall : ∀ j, decodesAt getRClevel results offset 0 j := fun j =>
      Classical.not_not.mp (fun h => hno ⟨j, h⟩)
    have h1 := cursorAfter_getRClevel_lower results offset 0 (results.rawlen + 1)
      (fun i _ => hall i)
    have h2 := (hall (results.rawlen + 1)).1
    omega
  refine ⟨Nat.find hex, ?_, ⟨fun j hj => Classical.not_not.mp (Nat.find_min hex hj),
    Nat.find_spec hex⟩⟩
  by_cases hk : Nat.find hex = 0
  · omega
  · have hall : ∀ i, i < Nat.find hex → decodesAt getRClevel results offset 0 i := fun i hi =>
      Classical.not_not.mp (Nat.find_min hex hi)
    have h0 : offset ≤ results.rawlen := (hall 0 (by omega)).1
    have h1 := cursorAfter_getRClevel_lower results offset 0 (Nat.find hex) hall
    have h2 := cursorAfter_getRClevel_bound results offset 0 h0 (Nat.find hex)
    omega

/-! ## The decoder after its loop -/

theorem dataLoop_init (getRC : RCReader) (results : decode_results) (fuel offset k : Nat)
    (hk : leadingValid getRC results offset k) (hf : k < fuel) :
    ∃ s1, dataLoop getRC results fuel
        { offset := offset, used := 0, data := 0, actual_bits := 0, reads := 0 } = some s1 ∧
      s1.data = msbFirst (bitAt getRC results offset 0) k % 2 ^ 64 ∧
      s1.actual_bits = k % 2 ^ 16 ∧
      s1.reads = 2 * k +
        (if (cursorAfter getRC results offset 0 k).1 ≤ results.rawlen then 2 else 0) := by
  obtain ⟨s1, hrun, hdata, hbits, hreads⟩ := dataLoop_run getRC results k fuel
    { offset := offset, used := 0, data := 0, actual_bits := 0, reads := 0 }
    (by positivity) (by positivity) hk.1 hk.2 hf
  refine ⟨s1, hrun, ?_, ?_, ?_⟩
  · rw [hdata]
    simp only [Nat.zero_mul, Nat.zero_add]
  · rw [hbits]
    simp only [Nat.zero_add]
  · rw [hreads]
    simp only [Nat.zero_add]

theorem decodeManchester_after_loop (kManchesterBits : Nat) (getRC : RCReader) (fuel : Nat)
    (results : decode_results) (offset nbits : Nat) (strict : Bool) (s1 : LoopState)
    (hlen : ¬ results.rawlen ≤ kManchesterMinSamples + offset)
    (hw : ¬ (strict = true ∧ nbits ≠ kManchesterBits))
    (hrun : dataLoop getRC results fuel
      { offset := offset, used := 0, data := 0, actual_bits := 0, reads := 0 } = some s1) :
    decodeManchester kManchesterBits getRC fuel results offset nbits strict =
      some (if s1.actual_bits < nbits then
          { ok := false, results := results, reads := s1.reads }
        else if strict = true ∧ s1.actual_bits ≠ kManchesterBits then
          { ok := false, results := results, reads := s1.reads }
        else
          { ok := true
            results :=
              { results with
                decode_type := .MANCHESTER
                value := s1.data
                address := s1.data &&& 0xF
                command := s1.data >>> 4
                repeat_ := false
                bits := s1.actual_bits }
            reads := s1.reads }) := by
  unfold decodeManchester
  rw [if_neg hlen, if_neg hw, hrun]
  simp only []
  split
  · rfl
  · split <;> rfl

theorem msbFirst_succ_right (b : Nat → Nat) (k : Nat) :
    msbFirst b (k + 1) = 2 * msbFirst b k + b k := by
  unfold msbFirst
  rw [Finset.sum_range_succ, Finset.mul_sum]
  congr 1
  · apply Finset.sum_congr rfl
    intro i hi
    have hlt : i < k := Finset.mem_range.mp hi
    have e : k + 1 - 1 - i = (k - 1 - i) + 1 := by omega
    rw [e, Nat.pow_succ]
    ring
  · simp

theorem shiftIn_eq_msbFirst (b : Nat → Nat) (hb : ∀ i, b i ≤ 1) :
    ∀ k, shiftIn b k = msbFirst b k := by
  intro k
  induction k with
  | zero => simp [shiftIn, msbFirst]
  | succ k ih =>
    rw [shiftIn, msbFirst_succ_right, ih]
    have h := hb k
    have hcases : b k = 0 ∨ b k = 1 := by omega
    rcases hcases with h0 | h1
    · rw [h0, shl_one]
      simp
    · rw [h1, shl_or_one]

theorem bitAt_le_one (getRC : RCReader) (results : decode_results) (offset used j : Nat) :
    bitAt getRC results offset used j ≤ 1 :=
  pairBit_le_one _

/-! ## Claims -/

/-- C6: for every data, every repeat count and every `nbits > 64`, `sendManchester`
returns at its first line: the trace is empty, so it holds no mark, no space and no
`enableIROut` call. -/
theorem sendManchester_too_wide_is_silent (kManchesterMinGap fuel data nbits repeat_ : Nat)
    (h : nbits > 64) :
    sendManchester kManchesterMinGap fuel data nbits repeat_ = .ok [] := by
  unfold sendManchester
  rw [if_pos (by unfold kDataBits; exact h)]

theorem sendManchester_too_wide_is_silent_witness :
    65 > 64 ∧ sendManchester 100000 0 0x5 65 3 = .ok [] :=
  ⟨by decide, sendManchester_too_wide_is_silent 100000 0 0x5 65 3 (by decide)⟩

/-- C7: when `rawlen <= kManchesterMinSamples + offset`, the sum taken in the natural
numbers and `kManchesterMinSamples` being 13, `decodeManchester` returns false for every
reader, sample buffer, `nbits` and `strict`; it reads nothing and leaves `results` as it
was. The bound is inclusive, so `rawlen = 13 + offset` is rejected. -/
theorem decodeManchester_rejects_short_capture (kManchesterBits : Nat) (getRC : RCReader)
    (fuel : Nat) (results : decode_results) (offset nbits : Nat) (strict : Bool)
    (h : results.rawlen ≤ 13 + offset) :
    kManchesterMinSamples = 13 ∧
      decodeManchester kManchesterBits getRC fuel results offset nbits strict =
        some { ok := false, results := results, reads := 0 } := by
  refine ⟨rfl, ?_⟩
  unfold decodeManchester
  rw [if_pos (by unfold kManchesterMinSamples; exact h)]

theorem decodeManchester_rejects_short_capture_witness :
    (freshResults fourteenSymbols).rawlen ≤ 13 + 1 ∧
      (kManchesterMinSamples = 13 ∧
        decodeManchester 7 getRClevel 20 (freshResults fourteenSymbols) 1 1 false =
          some { ok := false, results := freshResults fourteenSymbols, reads := 0 }) :=
  ⟨by decide,
    decodeManchester_rejects_short_capture 7 getRClevel 20 (freshResults fourteenSymbols) 1 1
      false (by decide)⟩

/-- C8: in strict mode with `nbits` different from `kManchesterBits`, `decodeManchester`
returns false for every reader and every `results` and `offset`, having made no call to
`getRClevel` and leaving `results` as it was; the outcome is the same whatever the
samples are. -/
theorem decodeManchester_strict_width_mismatch (kManchesterBits : Nat) (getRC : RCReader)
    (fuel : Nat) (results : decode_results) (offset nbits : Nat)
    (h : nbits ≠ kManchesterBits) :
    decodeManchester kManchesterBits getRC fuel results offset nbits true =
      some { ok := false, results := results, reads := 0 } := by
  unfold decodeManchester
  by_cases hlen : results.rawlen ≤ kManchesterMinSamples + offset
  · rw [if_pos hlen]
  · rw [if_neg hlen, if_pos ⟨rfl, h⟩]

theorem decodeManchester_strict_width_mismatch_witness :
    7 ≠ 12 ∧
      decodeManchester 12 getRClevel 20 (freshResults sevenBitSymbols) 0 7 true =
        some { ok := false, results := freshResults sevenBitSymbols, reads := 0 } :=
  ⟨by decide,
    decodeManchester_strict_width_mismatch 12 getRClevel 20 (freshResults sevenBitSymbols) 0 7
      (by decide)⟩

/-- C10: whenever `decodeManchester` returns false, for whichever of its four reasons,
the record behind `results` is exactly the record it was given: `decode_type`, `value`,
`address`, `command`, `repeat` and `bits` are untouched and the bits decoded so far are
dropped. -/
theorem decodeManchester_failure_is_atomic (kManchesterBits : Nat) (getRC : RCReader)
    (fuel : Nat) (results : decode_results) (offset nbits : Nat) (strict : Bool)
    (out : DecodeOutcome)
    (h : decodeManchester kManchesterBits getRC fuel results offset nbits strict = some out)
    (hfail : out.ok = false) :
    out.results = results := by
  by_cases hlen : results.rawlen ≤ kManchesterMinSamples + offset
  · unfold decodeManchester at h
    rw [if_pos hlen] at h
    cases h
    rfl
  · by_cases hw : strict = true ∧ nbits ≠ kManchesterBits
    · unfold decodeManchester at h
      rw [if_neg hlen, if_pos hw] at h
      cases h
      rfl
    · cases hrun : dataLoop getRC results fuel
          { offset := offset, used := 0, data := 0, actual_bits := 0, reads := 0 } with
      | none =>
        unfold decodeManchester at h
        rw [if_neg hlen, if_neg hw, hrun] at h
        cases h
      | some s1 =>
        rw [decodeManchester_after_loop kManchesterBits getRC fuel results offset nbits strict
          s1 hlen hw hrun] at h
        by_cases h1 : s1.actual_bits < nbits
        · rw [if_pos h1] at h
          cases h
          rfl
        · by_cases h2 : strict = true ∧ s1.actual_bits ≠ kManchesterBits
          · rw [if_neg h1, if_pos h2] at h
            cases h
            rfl
          · rw [if_neg h1, if_neg h2] at h
            cases h
            cases hfail

theorem decodeManchester_failure_is_atomic_witness :
    decodeManchester 12 getRClevel 20 staleResults 0 8 false =
        some { ok := false, results := staleResults, reads := 16 } ∧
      ({ ok := false, results := staleResults, reads := 16 } : DecodeOutcome).ok = false ∧
      ({ ok := false, results := staleResults, reads := 16 } : DecodeOutcome).results =
        staleResults :=
  ⟨by decide, rfl,
    decodeManchester_failure_is_atomic 12 getRClevel 20 staleResults 0 8 false
      { ok := false, results := staleResults, reads := 16 } (by decide) rfl⟩

/-- C3: let `k < 2 ^ 16` be the number of consecutive valid pairs the loop reads from the
start offset, the pair read after them being invalid or lying past the end of the
samples. Given fuel for those `k + 1` passes, `decodeManchester` returns, and it returns
true exactly when `rawlen > kManchesterMinSamples + offset`, strict mode implies
`nbits = kManchesterBits`, `k >= nbits`, and strict mode implies `k = kManchesterBits`;
otherwise it returns false. -/
theorem decodeManchester_true_iff_checks_pass (kManchesterBits : Nat) (getRC : RCReader)
    (fuel : Nat) (results : decode_results) (offset nbits : Nat) (strict : Bool) (k : Nat)
    (hk : leadingValid getRC results offset k) (hk16 : k < 2 ^ 16) (hf : k < fuel) :
    ∃ out, decodeManchester kManchesterBits getRC fuel results offset nbits strict = some out ∧
      (out.ok = true ↔
        (results.rawlen > kManchesterMinSamples + offset ∧
          (strict = true → nbits = kManchesterBits) ∧
          k ≥ nbits ∧
          (strict = true → k = kManchesterBits))) ∧
      (out.ok = false ↔
        ¬ (results.rawlen > kManchesterMinSamples + offset ∧
          (strict = true → nbits = kManchesterBits) ∧
          k ≥ nbits ∧
          (strict = true → k = kManchesterBits))) := by
  by_cases hlen : results.rawlen ≤ kManchesterMinSamples + offset
  · refine ⟨{ ok := false, results := results, reads := 0 }, ?_, ?_, ?_⟩
    · unfold decodeManchester
      rw [if_pos hlen]
    · constructor
      · intro h; cases h
      · intro h; omega
    · constructor
      · intro _ h; omega
      · intro _; rfl
  · by_cases hw : strict = true ∧ nbits ≠ kManchesterBits
    · refine ⟨{ ok := false, results := results, reads := 0 }, ?_, ?_, ?_⟩
      · unfold decodeManchester
        rw [if_neg hlen, if_pos hw]
      · constructor
        · intro h; cases h
        · intro h; exact absurd (h.2.1 hw.1) hw.2
      · constructor
        · intro _ h; exact absurd (h.2.1 hw.1) hw.2
        · intro _; rfl
    · obtain ⟨s1, hrun, _, hbits, _⟩ := dataLoop_init getRC results fuel offset k hk hf
      rw [Nat.mod_eq_of_lt hk16] at hbits
      have hwidth : strict = true → nbits = kManchesterBits := fun hs =>
        Classical.not_not.mp (fun hne => hw ⟨hs, hne⟩)
      rw [decodeManchester_after_loop kManchesterBits getRC fuel results offset nbits strict
        s1 hlen hw hrun, hbits]
      by_cases h1 : k < nbits
      · refine ⟨_, by rw [if_pos h1], ?_, ?_⟩
        · constructor
          · intro h; cases h
          · intro h; omega
        · constructor
          · intro _ h; omega
          · intro _; rfl
      · by_cases h2 : strict = true ∧ k ≠ kManchesterBits
        · refine ⟨_, by rw [if_neg h1, if_pos h2], ?_, ?_⟩
          · constructor
            · intro h; cases h
            · intro h; exact absurd (h.2.2.2 h2.1) h2.2
          · constructor
            · intro _ h; exact absurd (h.2.2.2 h2.1) h2.2
            · intro _; rfl
        · refine ⟨_, by rw [if_neg h1, if_neg h2], ?_, ?_⟩
          · constructor
            · intro _
              exact ⟨by omega, hwidth, by omega, fun hs =>
                Classical.not_not.mp (fun hne => h2 ⟨hs, hne⟩)⟩
            · intro _; rfl
          · constructor
            · intro h; cases h
            · intro h
              exact absurd ⟨by omega, hwidth, by omega, fun hs =>
                Classical.not_not.mp (fun hne => h2 ⟨hs, hne⟩)⟩ h

theorem decodeManchester_true_iff_checks_pass_witness :
    leadingValid getRClevel (freshResults sevenBitSymbols) 0 7 ∧ 7 < 2 ^ 16 ∧ 7 < 8 ∧
      ∃ out, decodeManchester 7 getRClevel 8 (freshResults sevenBitSymbols) 0 7 true = some out ∧
        (out.ok = true ↔
          ((freshResults sevenBitSymbols).rawlen > kManchesterMinSamples + 0 ∧
            (true = true → 7 = 7) ∧ 7 ≥ 7 ∧ (true = true → 7 = 7))) ∧
        (out.ok = false ↔
          ¬ ((freshResults sevenBitSymbols).rawlen > kManchesterMinSamples + 0 ∧
            (true = true → 7 = 7) ∧ 7 ≥ 7 ∧ (true = true → 7 = 7))) :=
  ⟨by decide, by decide, by decide,
    decodeManchester_true_iff_checks_pass 7 getRClevel 8 (freshResults sevenBitSymbols) 0 7 true
      7 (by decide) (by decide) (by decide)⟩

/-- C4: when `decodeManchester` succeeds after reading `k <= 64` leading valid pairs with
bits `b_0 .. b_(k-1)` (1 for (SPACE, MARK), 0 for (MARK, SPACE)), `results.value` is the
sum of `b_i * 2 ^ (k - 1 - i)`, which is what applying `payload = payload << 1 | b_i` to
the bits in order, starting from 0, gives. -/
theorem decodeManchester_value_is_msb_first (kManchesterBits : Nat) (getRC : RCReader)
    (fuel : Nat) (results : decode_results) (offset nbits : Nat) (strict : Bool) (k : Nat)
    (out : DecodeOutcome)
    (hk : leadingValid getRC results offset k) (hk64 : k ≤ 64) (hf : k < fuel)
    (h : decodeManchester kManchesterBits getRC fuel results offset nbits strict = some out)
    (hok : out.ok = true) :
    out.results.value = msbFirst (bitAt getRC results offset 0) k ∧
      out.results.value = shiftIn (bitAt getRC results offset 0) k := by
  have hlt : msbFirst (bitAt getRC results offset 0) k < 2 ^ 64 :=
    Nat.lt_of_lt_of_le (msbFirst_lt _ (bitAt_le_one getRC results offset 0) k)
      (Nat.pow_le_pow_right (by decide) hk64)
  have hshift := shiftIn_eq_msbFirst (bitAt getRC results offset 0)
    (bitAt_le_one getRC results offset 0) k
  rw [hshift, and_self]
  by_cases hlen : results.rawlen ≤ kManchesterMinSamples + offset
  · unfold decodeManchester at h
    rw [if_pos hlen] at h
    cases h
    cases hok
  · by_cases hw : strict = true ∧ nbits ≠ kManchesterBits
    · unfold decodeManchester at h
      rw [if_neg hlen, if_pos hw] at h
      cases h
      cases hok
    · obtain ⟨s1, hrun, hdata, _, _⟩ := dataLoop_init getRC results fuel offset k hk hf
      rw [Nat.mod_eq_of_lt hlt] at hdata
      rw [decodeManchester_after_loop kManchesterBits getRC fuel results offset nbits strict
        s1 hlen hw hrun] at h
      by_cases h1 : s1.actual_bits < nbits
      · rw [if_pos h1] at h
        cases h
        cases hok
      · by_cases h2 : strict = true ∧ s1.actual_bits ≠ kManchesterBits
        · rw [if_neg h1, if_pos h2] at h
          cases h
          cases hok
        · rw [if_neg h1, if_neg h2] at h
          cases h
          exact hdata

theorem decodeManchester_value_is_msb_first_witness :
    leadingValid getRClevel (freshResults sevenBitSymbols) 0 7 ∧ 7 ≤ 64 ∧ 7 < 8 ∧
      decodeManchester 7 getRClevel 8 (freshResults sevenBitSymbols) 0 7 true =
        some sevenBitDecoded ∧
      sevenBitDecoded.ok = true ∧
      (sevenBitDecoded.results.value =
          msbFirst (bitAt getRClevel (freshResults sevenBitSymbols) 0 0) 7 ∧
        sevenBitDecoded.results.value =
          shiftIn (bitAt getRClevel (freshResults sevenBitSymbols) 0 0) 7) :=
  ⟨by decide, by decide, by decide, by decide, rfl,
    decodeManchester_value_is_msb_first 7 getRClevel 8 (freshResults sevenBitSymbols) 0 7 true 7
      sevenBitDecoded (by decide) (by decide) (by decide) (by decide) rfl⟩

/-- C9: whenever `decodeManchester` returns true, having read `k < 2 ^ 16` leading valid
pairs, the record holds `decode_type = MANCHESTER`, `address = value & 0xF` (the low 4
bits of the value), `command = value >> 4` (the value without its low 4 bits),
`repeat = false` and `bits = k`, the number of bits decoded. -/
theorem decodeManchester_success_fields (kManchesterBits : Nat) (getRC : RCReader)
    (fuel : Nat) (results : decode_results) (offset nbits : Nat) (strict : Bool) (k : Nat)
    (out : DecodeOutcome)
    (hk : leadingValid getRC results offset k) (hk16 : k < 2 ^ 16) (hf : k < fuel)
    (h : decodeManchester kManchesterBits getRC fuel results offset nbits strict = some out)
    (hok : out.ok = true) :
    out.results.decode_type = .MANCHESTER ∧
      out.results.address = out.results.value &&& 0xF ∧
      out.results.address = out.results.value % 2 ^ 4 ∧
      out.results.command = out.results.value >>> 4 ∧
      out.results.command = out.results.value / 2 ^ 4 ∧
      out.results.repeat_ = false ∧
      out.results.bits = k := by
  have hmask : ∀ x : Nat, x &&& 0xF = x % 2 ^ 4 := fun x =>
    Nat.and_pow_two_sub_one_eq_mod x 4
  by_cases hlen : results.rawlen ≤ kManchesterMinSamples + offset
  · unfold decodeManchester at h
    rw [if_pos hlen] at h
    cases h
    cases hok
  · by_cases hw : strict = true ∧ nbits ≠ kManchesterBits
    · unfold decodeManchester at h
      rw [if_neg hlen, if_pos hw] at h
      cases h
      cases hok
    · obtain ⟨s1, hrun, _, hbits, _⟩ := dataLoop_init getRC results fuel offset k hk hf
      rw [Nat.mod_eq_of_lt hk16] at hbits
      rw [decodeManchester_after_loop kManchesterBits getRC fuel results offset nbits strict
        s1 hlen hw hrun] at h
      by_cases h1 : s1.actual_bits < nbits
      · rw [if_pos h1] at h
        cases h
        cases hok
      · by_cases h2 : strict = true ∧ s1.actual_bits ≠ kManchesterBits
        · rw [if_neg h1, if_pos h2] at h
          cases h
          cases hok
        · rw [if_neg h1, if_neg h2] at h
          cases h
          exact ⟨rfl, rfl, hmask _, rfl, Nat.shiftRight_eq_div_pow _ 4, rfl, hbits⟩

theorem decodeManchester_success_fields_witness :
    leadingValid getRClevel staleResults 0 7 ∧ 7 < 2 ^ 16 ∧ 7 < 9 ∧
      decodeManchester 12 getRClevel 9 staleResults 0 5 false = some sevenBitDecoded ∧
      sevenBitDecoded.ok = true ∧
      (sevenBitDecoded.results.decode_type = .MANCHESTER ∧
        sevenBitDecoded.results.address = sevenBitDecoded.results.value &&& 0xF ∧
        sevenBitDecoded.results.address = sevenBitDecoded.results.value % 2 ^ 4 ∧
        sevenBitDecoded.results.command = sevenBitDecoded.results.value >>> 4 ∧
        sevenBitDecoded.results.command = sevenBitDecoded.results.value / 2 ^ 4 ∧
        sevenBitDecoded.results.repeat_ = false ∧
        sevenBitDecoded.results.bits = 7) :=
  ⟨by decide, by decide, by decide, by decide, rfl,
    decodeManchester_success_fields 12 getRClevel 9 staleResults 0 5 false 7 sevenBitDecoded
      (by decide) (by decide) (by decide) (by decide) rfl⟩

/-! ## Round trip lemmas -/

theorem manchesterBits_length (data : Nat) : ∀ n, (manchesterBits data n).length = 2 * n := by
  intro n
  induction n with
  | zero => rfl
  | succ n ih =>
    rw [manchesterBits, List.length_append, ih]
    unfold bitPair
    split <;> simp <;> omega

theorem pulsesOf_manchesterBits (data : Nat) :
    ∀ n, pulsesOf (manchesterBits data n) = manchesterBits data n := by
  intro n
  induction n with
  | zero => rfl
  | succ n ih =>
    unfold pulsesOf at ih ⊢
    rw [manchesterBits, List.filter_append, ih]
    unfold bitPair
    split <;> rfl

theorem pulsesOf_transmissions (gap data nbits : Nat) :
    ∀ count, pulsesOf (transmissions gap data nbits count) = transmissions gap data nbits count := by
  intro count
  induction count with
  | zero => rfl
  | succ count ih =>
    have hb := pulsesOf_manchesterBits data nbits
    unfold pulsesOf at ih hb ⊢
    rw [transmissions, transmission, List.filter_append, List.filter_append, ih, hb]
    rfl

theorem take_transmissions (gap data nbits count : Nat) :
    (transmissions gap data nbits (count + 1)).take (2 * nbits) = manchesterBits data nbits := by
  rw [transmissions, transmission, List.append_assoc]
  rw [List.take_append_of_le_length (by rw [manchesterBits_length])]
  rw [← manchesterBits_length data nbits, List.take_length]

theorem classify_bitPair (b : Bool) :
    (bitPair b).map classify = if b then [kSpace, kMark] else [kMark, kSpace] := by
  cases b <;> decide

theorem symbols_getD (data : Nat) :
    ∀ n j, j < n →
      ((manchesterBits data n).map classify).getD (2 * j) (-1) =
          (if data.testBit (n - 1 - j) then kSpace else kMark) ∧
        ((manchesterBits data n).map classify).getD (2 * j + 1) (-1) =
          (if data.testBit (n - 1 - j) then kMark else kSpace) := by
  intro n
  induction n with
  | zero => intro j hj; omega
  | succ n ih =>
    intro j hj
    rw [manchesterBits, List.map_append, classify_bitPair]
    cases j with
    | zero =>
      have e : n + 1 - 1 - 0 = n := by omega
      rw [e]
      cases data.testBit n <;> exact ⟨rfl, rfl⟩
    | succ j =>
      have e : n + 1 - 1 - (j + 1) = n - 1 - j := by omega
      have e0 : 2 * (j + 1) = 2 * j + 1 + 1 := by omega
      rw [e, e0]
      have h := ih j (by omega)
      cases data.testBit n <;> exact h

theorem sum_testBit (v : Nat) :
    ∀ n, Finset.sum (Finset.range n) (fun m => (v.testBit m).toNat * 2 ^ m) = v % 2 ^ n := by
  intro n
  induction n with
  | zero => simp [Nat.mod_one]
  | succ n ih =>
    rw [Finset.sum_range_succ, ih, Nat.mod_pow_succ, Nat.toNat_testBit, Nat.mul_comm]

theorem msbFirst_testBit (v n : Nat) (b : Nat → Nat)
    (hb : ∀ j, j < n → b j = (v.testBit (n - 1 - j)).toNat) : msbFirst b n = v % 2 ^ n := by
  unfold msbFirst
  rw [← sum_testBit v n, ← Finset.sum_range_reflect (fun m => (v.testBit m).toNat * 2 ^ m) n]
  apply Finset.sum_congr rfl
  intro i hi
  rw [hb i (Finset.mem_range.mp hi)]

/-- The samples captured from the pulses of `n` bits of `v`, read by the modelled reader
from offset 0: exactly `n` leading valid pairs, whose bits are the bits of `v` from bit
`n - 1` down to bit 0. -/
theorem captured_bits_leadingValid (v n : Nat) :
    leadingValid getRClevel (freshResults ((manchesterBits v n).map classify)) 0 n ∧
      ∀ j, j < n →
        bitAt getRClevel (freshResults ((manchesterBits v n).map classify)) 0 0 j =
          (v.testBit (n - 1 - j)).toNat := by
  have hlen : (freshResults ((manchesterBits v n).map classify)).rawlen = 2 * n := by
    unfold freshResults
    simp only [List.length_map, manchesterBits_length]
  have hpair : ∀ j, j < n →
      pairAt getRClevel (freshResults ((manchesterBits v n).map classify)) 0 0 j =
        ((if v.testBit (n - 1 - j) then kSpace else kMark),
         (if v.testBit (n - 1 - j) then kMark else kSpace)) := by
    intro j hj
    rw [pairAt_getRClevel _ 0 0 j (by rw [hlen]; omega)]
    have h := symbols_getD v n j hj
    simp only [Nat.zero_add]
    exact Prod.ext h.1 h.2
  refine ⟨⟨?_, ?_⟩, ?_⟩
  · intro j hj
    refine ⟨?_, ?_⟩
    · rw [cursorAfter_getRClevel _ 0 0 j (by rw [hlen]; omega), hlen]
      omega
    · rw [hpair j hj]
      cases v.testBit (n - 1 - j)
      · exact Or.inr ⟨rfl, rfl⟩
      · exact Or.inl ⟨rfl, rfl⟩
  · intro h
    have hp := pairAt_getRClevel_at_end (freshResults ((manchesterBits v n).map classify)) 0 0 n
      (by rw [hlen]; omega)
    rw [decodesAt, hp] at h
    exact not_validPair_same kSpace h.2
  · intro j hj
    unfold bitAt
    rw [hpair j hj]
    cases v.testBit (n - 1 - j) <;> decide

/-- C1, as stated, fails at the spec's own example `v = 0x5`, `n = 4`, `r = 0`: the eight
classified symbols of the transmission are fewer than `kManchesterMinSamples + 1`, so
`decodeManchester` returns false at its first line, in lenient and in strict mode, and
`results` stays without a decode. -/
theorem roundtrip_of_four_bits_is_rejected :
    sendManchester 100000 1 0x5 4 0 = .ok fourBitTrace ∧
      (captured fourBitTrace (2 * 4)).rawbuf =
        [kMark, kSpace, kSpace, kMark, kMark, kSpace, kSpace, kMark] ∧
      decodeManchester 4 getRClevel 5 (captured fourBitTrace (2 * 4)) 0 4 false =
        some { ok := false, results := captured fourBitTrace (2 * 4), reads := 0 } ∧
      decodeManchester 4 getRClevel 5 (captured fourBitTrace (2 * 4)) 0 4 true =
        some { ok := false, results := captured fourBitTrace (2 * 4), reads := 0 } := by
  decide

/-- C1, amended: for every bit width `n` with `7 <= n <= 64`, every payload `v` and every
repeat count `r < 65535`, `sendManchester(v, n, r)` finishes, and feeding the `2 * n`
classified symbols of its first transmission (the gap left out) to `decodeManchester`
with `nbits = n`, in lenient mode or in strict mode when `n = kManchesterBits`, makes the
decode succeed with `bits = n` and `value = v mod 2 ^ n`, which is `v` for every payload
that fits in `n` bits. -/
theorem roundtrip_from_seven_bits (kManchesterMinGap kManchesterBits fuelSend fuelDecode : Nat)
    (v n r : Nat) (strict : Bool)
    (hn7 : 7 ≤ n) (hn64 : n ≤ 64) (hr : r < 65535)
    (hfs : r < fuelSend) (hfd : n < fuelDecode) (hs : strict = true → n = kManchesterBits) :
    ∃ trace out,
      sendManchester kManchesterMinGap fuelSend v n r = .ok trace ∧
        decodeManchester kManchesterBits getRClevel fuelDecode (captured trace (2 * n)) 0 n
          strict = some out ∧
        out.ok = true ∧ out.results.bits = n ∧ out.results.value = v % 2 ^ n ∧
        (v < 2 ^ n → out.results.value = v) := by
  have hcap : captured (.enableIROut frequency dutyCycle ::
      transmissions kManchesterMinGap v n (r + 1)) (2 * n) =
      freshResults ((manchesterBits v n).map classify) := by
    have hp : pulsesOf (.enableIROut frequency dutyCycle ::
        transmissions kManchesterMinGap v n (r + 1)) =
        transmissions kManchesterMinGap v n (r + 1) := by
      have h := pulsesOf_transmissions kManchesterMinGap v n (r + 1)
      unfold pulsesOf at h ⊢
      rw [List.filter_cons_of_neg (by simp), h]
    unfold captured
    rw [hp, take_transmissions]
  obtain ⟨hk, hbit⟩ := captured_bits_leadingValid v n
  have hlen : (freshResults ((manchesterBits v n).map classify)).rawlen = 2 * n := by
    unfold freshResults
    simp only [List.length_map, manchesterBits_length]
  obtain ⟨s1, hrun, hdata, hbits, _⟩ := dataLoop_init getRClevel
    (freshResults ((manchesterBits v n).map classify)) fuelDecode 0 n hk hfd
  have h64 : (2 : Nat) ^ n ≤ 2 ^ 64 := Nat.pow_le_pow_right (by decide) hn64
  have hmod : v % 2 ^ n < 2 ^ n := Nat.mod_lt _ (by positivity)
  rw [msbFirst_testBit v n _ hbit, Nat.mod_eq_of_lt (by omega)] at hdata
  rw [Nat.mod_eq_of_lt (by norm_num; omega)] at hbits
  have hguard : ¬ (freshResults ((manchesterBits v n).map classify)).rawlen ≤
      kManchesterMinSamples + 0 := by
    rw [hlen]
    unfold kManchesterMinSamples
    omega
  have hw : ¬ (strict = true ∧ n ≠ kManchesterBits) := fun h => h.2 (hs h.1)
  have hdec := decodeManchester_after_loop kManchesterBits getRClevel fuelDecode
    (freshResults ((manchesterBits v n).map classify)) 0 n strict s1 hguard hw hrun
  rw [if_neg (by omega), if_neg (fun h => hw ⟨h.1, by rw [← hbits]; exact h.2⟩)] at hdec
  exact ⟨_, _, sendManchester_eq kManchesterMinGap fuelSend v n r (by omega) hn64 hr hfs,
    by rw [hcap]; exact hdec, rfl, hbits, hdata,
    fun hv => hdata.trans (Nat.mod_eq_of_lt hv)⟩

theorem roundtrip_from_seven_bits_witness :
    7 ≤ 7 ∧ 7 ≤ 64 ∧ 1 < 65535 ∧ 1 < 2 ∧ 7 < 8 ∧ (true = true → 7 = 7) ∧
      ∃ trace out,
        sendManchester 100000 2 0x56 7 1 = .ok trace ∧
          decodeManchester 7 getRClevel 8 (captured trace (2 * 7)) 0 7 true = some out ∧
          out.ok = true ∧ out.results.bits = 7 ∧ out.results.value = 0x56 % 2 ^ 7 ∧
          (0x56 < 2 ^ 7 → out.results.value = 0x56) :=
  ⟨by decide, by decide, by decide, by decide, by decide, by decide,
    roundtrip_from_seven_bits 100000 7 2 8 0x56 7 1 true (by decide) (by decide) (by decide)
      (by decide) (by decide) (by decide)⟩

/-- C2, at `repeat = 65535`: the loop test `i <= repeat` holds for every value of the
16-bit counter, so `sendManchester(0x5, 4, 65535)` never finishes, whatever the gap
length and however much fuel the outer loop is given; it does not stop after 65536
copies of the transmission. -/
theorem sendManchester_max_repeat_never_finishes (kManchesterMinGap fuel : Nat) :
    sendManchester kManchesterMinGap fuel 0x5 4 65535 = .error .outOfFuel := by
  unfold sendManchester
  rw [if_neg (by decide)]
  simp only [sendRepeats_max_repeat kManchesterMinGap 0x5 4 (by decide) (by decide) fuel 0
    (by decide)]

/-! ## Early termination lemmas -/

theorem leadingValid_of_stream (results : decode_results) (offset j : Nat)
    (hin : offset + 2 * j + 2 ≤ results.rawlen)
    (hvalid : ∀ i, i < j → validPair (results.rawbuf.getD (offset + 2 * i) (-1),
      results.rawbuf.getD (offset + 2 * i + 1) (-1)))
    (hinv : ¬ validPair (results.rawbuf.getD (offset + 2 * j) (-1),
      results.rawbuf.getD (offset + 2 * j + 1) (-1))) :
    leadingValid getRClevel results offset j := by
  refine ⟨fun i hi => ⟨?_, ?_⟩, fun h => hinv ?_⟩
  · rw [cursorAfter_getRClevel results offset 0 i (by omega)]
    omega
  · rw [pairAt_getRClevel results offset 0 i (by omega)]
    exact hvalid i hi
  · have hp := h.2
    rw [pairAt_getRClevel results offset 0 j hin] at hp
    exact hp

theorem msbFirst_congr (b c : Nat → Nat) (k : Nat) (h : ∀ i, i < k → b i = c i) :
    msbFirst b k = msbFirst c k := by
  unfold msbFirst
  apply Finset.sum_congr rfl
  intro i hi
  rw [h i (Finset.mem_range.mp hi)]

/-- Two calls whose guards decide alike and whose loops end with the same accumulator and
bit count, on records with the same `value` and `bits`, return the same flag, value and
bits. -/
theorem decodeManchester_agree (kManchesterBits : Nat) (getRC1 getRC2 : RCReader)
    (fuel1 fuel2 : Nat) (r1 r2 : decode_results) (offset nbits : Nat) (strict : Bool)
    (s1 s2 : LoopState)
    (hvalue : r1.value = r2.value) (hbitsf : r1.bits = r2.bits)
    (hsame : r1.rawlen ≤ kManchesterMinSamples + offset ↔
      r2.rawlen ≤ kManchesterMinSamples + offset)
    (hrun1 : dataLoop getRC1 r1 fuel1
      { offset := offset, used := 0, data := 0, actual_bits := 0, reads := 0 } = some s1)
    (hrun2 : dataLoop getRC2 r2 fuel2
      { offset := offset, used := 0, data := 0, actual_bits := 0, reads := 0 } = some s2)
    (hdata : s1.data = s2.data) (hcount : s1.actual_bits = s2.actual_bits) :
    ∃ out1 out2,
      decodeManchester kManchesterBits getRC1 fuel1 r1 offset nbits strict = some out1 ∧
        decodeManchester kManchesterBits getRC2 fuel2 r2 offset nbits strict = some out2 ∧
        out1.ok = out2.ok ∧ out1.results.value = out2.results.value ∧
        out1.results.bits = out2.results.bits := by
  by_cases hlen : r1.rawlen ≤ kManchesterMinSamples + offset
  · refine ⟨{ ok := false, results := r1, reads := 0 }, { ok := false, results := r2, reads := 0 },
      ?_, ?_, rfl, hvalue, hbitsf⟩
    · unfold decodeManchester
      rw [if_pos hlen]
    · unfold decodeManchester
      rw [if_pos (hsame.mp hlen)]
  · have hlen2 : ¬ r2.rawlen ≤ kManchesterMinSamples + offset := fun h => hlen (hsame.mpr h)
    by_cases hw : strict = true ∧ nbits ≠ kManchesterBits
    · refine ⟨{ ok := false, results := r1, reads := 0 },
        { ok := false, results := r2, reads := 0 }, ?_, ?_, rfl, hvalue, hbitsf⟩
      · unfold decodeManchester
        rw [if_neg hlen, if_pos hw]
      · unfold decodeManchester
        rw [if_neg hlen2, if_pos hw]
    · rw [decodeManchester_after_loop kManchesterBits getRC1 fuel1 r1 offset nbits strict s1
        hlen hw hrun1,
        decodeManchester_after_loop kManchesterBits getRC2 fuel2 r2 offset nbits strict s2
        hlen2 hw hrun2, ← hcount, ← hdata]
      by_cases h1 : s1.actual_bits < nbits
      · rw [if_pos h1, if_pos h1]
        exact ⟨_, _, rfl, rfl, rfl, hvalue, hbitsf⟩
      · by_cases h2 : strict = true ∧ s1.actual_bits ≠ kManchesterBits
        · rw [if_neg h1, if_pos h2, if_neg h1, if_pos h2]
          exact ⟨_, _, rfl, rfl, rfl, hvalue, hbitsf⟩
        · rw [if_neg h1, if_neg h2, if_neg h1, if_neg h2]
          exact ⟨_, _, rfl, rfl, rfl, rfl, rfl⟩

/-- C5, as stated, fails: `shortStream` and `longStream` agree up to and including their
first invalid pair, the third, yet decoding with `nbits = 2` returns false on the first
(its six samples do not pass the minimum-sample check) and true, with value 3 and 2 bits,
on the second. The samples after the invalid pair count towards `rawlen`. -/
theorem streams_agreeing_to_invalid_pair_differ :
    longStream.take 6 = shortStream ∧
      validPair (shortStream.getD 0 (-1), shortStream.getD 1 (-1)) ∧
      validPair (shortStream.getD 2 (-1), shortStream.getD 3 (-1)) ∧
      ¬ validPair (shortStream.getD 4 (-1), shortStream.getD 5 (-1)) ∧
      decodeManchester 2 getRClevel 5 (freshResults shortStream) 0 2 false =
        some { ok := false, results := freshResults shortStream, reads := 0 } ∧
      decodeManchester 2 getRClevel 5 (freshResults longStream) 0 2 false =
        some
          { ok := true
            results :=
              { decode_type := .MANCHESTER, value := 3, address := 3, command := 0, bits := 2,
                repeat_ := false, rawbuf := longStream, rawlen := 20 }
            reads := 6 } := by
  decide

/-- C5, amended: let the samples from the start offset hold `j` valid pairs and then, as
pair `j + 1`, an invalid pair (any pair other than (SPACE, MARK) and (MARK, SPACE), a
"no match" level included), all inside the buffer. Then the data loop stops at that
pair, having made `2 * (j + 1)` reads, with the bit count `j` and the accumulator holding
the `j` bits decoded before it. Two buffers that agree up to and including that pair, and
that either both pass or both fail the minimum-sample check, give the same return flag,
value and bits. -/
theorem decodeManchester_stops_at_invalid_pair (kManchesterBits fuel : Nat)
    (results : decode_results) (rawbuf2 : List Int) (rawlen2 : Nat) (offset nbits : Nat)
    (strict : Bool) (j : Nat)
    (hr : results.rawlen < 2 ^ 16)
    (hin : offset + 2 * j + 2 ≤ results.rawlen) (hin2 : offset + 2 * j + 2 ≤ rawlen2)
    (hvalid : ∀ i, i < j → validPair (results.rawbuf.getD (offset + 2 * i) (-1),
      results.rawbuf.getD (offset + 2 * i + 1) (-1)))
    (hinv : ¬ validPair (results.rawbuf.getD (offset + 2 * j) (-1),
      results.rawbuf.getD (offset + 2 * j + 1) (-1)))
    (hagree : ∀ i, offset ≤ i → i < offset + 2 * j + 2 →
      results.rawbuf.getD i (-1) = rawbuf2.getD i (-1))
    (hsame : results.rawlen ≤ kManchesterMinSamples + offset ↔
      rawlen2 ≤ kManchesterMinSamples + offset)
    (hf : j < fuel) :
    (∃ s1, dataLoop getRClevel results fuel
        { offset := offset, used := 0, data := 0, actual_bits := 0, reads := 0 } = some s1 ∧
      s1.reads = 2 * (j + 1) ∧ s1.actual_bits = j ∧
      s1.data = msbFirst (bitAt getRClevel results offset 0) j % 2 ^ 64) ∧
    (∃ out1 out2,
      decodeManchester kManchesterBits getRClevel fuel results offset nbits strict =
          some out1 ∧
        decodeManchester kManchesterBits getRClevel fuel
          { results with rawbuf := rawbuf2, rawlen := rawlen2 } offset nbits strict =
          some out2 ∧
        out1.ok = out2.ok ∧ out1.results.value = out2.results.value ∧
        out1.results.bits = out2.results.bits) := by
  have hk1 := leadingValid_of_stream results offset j hin hvalid hinv
  have hk2 : leadingValid getRClevel { results with rawbuf := rawbuf2, rawlen := rawlen2 }
      offset j := by
    apply leadingValid_of_stream _ offset j hin2
    · intro i hi
      have h := hvalid i hi
      rw [hagree _ (by omega) (by omega), hagree _ (by omega) (by omega)] at h
      exact h
    · intro h
      apply hinv
      rw [hagree _ (by omega) (by omega), hagree _ (by omega) (by omega)]
      exact h
  obtain ⟨s1, hrun1, hdata1, hbits1, hreads1⟩ :=
    dataLoop_init getRClevel results fuel offset j hk1 hf
  obtain ⟨s2, hrun2, hdata2, hbits2, _⟩ :=
    dataLoop_init getRClevel { results with rawbuf := rawbuf2, rawlen := rawlen2 } fuel offset
      j hk2 hf
  have hbit : ∀ i, i < j → bitAt getRClevel results offset 0 i =
      bitAt getRClevel { results with rawbuf := rawbuf2, rawlen := rawlen2 } offset 0 i := by
    intro i hi
    unfold bitAt
    rw [pairAt_getRClevel results offset 0 i (by omega),
      pairAt_getRClevel { results with rawbuf := rawbuf2, rawlen := rawlen2 } offset 0 i
        (by simp only []; omega)]
    rw [hagree _ (by omega) (by omega), hagree _ (by omega) (by omega)]
  have hcur := cursorAfter_getRClevel results offset 0 j (by omega)
  refine ⟨⟨s1, hrun1, ?_, ?_, hdata1⟩, ?_⟩
  · rw [hreads1, hcur, if_pos (by omega)]
    omega
  · rw [hbits1]
    exact Nat.mod_eq_of_lt (by omega)
  · exact decodeManchester_agree kManchesterBits getRClevel getRClevel fuel fuel results
      { results with rawbuf := rawbuf2, rawlen := rawlen2 } offset nbits strict s1 s2 rfl rfl
      hsame hrun1 hrun2
      (by rw [hdata1, hdata2, msbFirst_congr _ _ j hbit]) (by rw [hbits1, hbits2])

theorem decodeManchester_stops_at_invalid_pair_witness :
    (freshResults sevenBitSymbols).rawlen < 2 ^ 16 ∧
      0 + 2 * 7 + 2 ≤ (freshResults sevenBitSymbols).rawlen ∧
      0 + 2 * 7 + 2 ≤ 18 ∧
      (∀ i, i < 7 → validPair ((freshResults sevenBitSymbols).rawbuf.getD (0 + 2 * i) (-1),
        (freshResults sevenBitSymbols).rawbuf.getD (0 + 2 * i + 1) (-1))) ∧
      (¬ validPair ((freshResults sevenBitSymbols).rawbuf.getD (0 + 2 * 7) (-1),
        (freshResults sevenBitSymbols).rawbuf.getD (0 + 2 * 7 + 1) (-1))) ∧
      (∀ i, 0 ≤ i → i < 0 + 2 * 7 + 2 →
        (freshResults sevenBitSymbols).rawbuf.getD i (-1) = eighteenSymbols.getD i (-1)) ∧
      ((freshResults sevenBitSymbols).rawlen ≤ kManchesterMinSamples + 0 ↔
        18 ≤ kManchesterMinSamples + 0) ∧
      7 < 8 ∧
      ((∃ s1, dataLoop getRClevel (freshResults sevenBitSymbols) 8
          { offset := 0, used := 0, data := 0, actual_bits := 0, reads := 0 } = some s1 ∧
        s1.reads = 2 * (7 + 1) ∧ s1.actual_bits = 7 ∧
        s1.data = msbFirst (bitAt getRClevel (freshResults sevenBitSymbols) 0 0) 7 % 2 ^ 64) ∧
      (∃ out1 out2,
        decodeManchester 7 getRClevel 8 (freshResults sevenBitSymbols) 0 7 true = some out1 ∧
          decodeManchester 7 getRClevel 8
            { freshResults sevenBitSymbols with rawbuf := eighteenSymbols, rawlen := 18 } 0 7
            true = some out2 ∧
          out1.ok = out2.ok ∧ out1.results.value = out2.results.value ∧
          out1.results.bits = out2.results.bits)) :=
  ⟨by decide, by decide, by decide, by decide, by decide, by decide, by decide, by decide,
    decodeManchester_stops_at_invalid_pair 7 8 (freshResults sevenBitSymbols) eighteenSymbols 18
      0 7 true 7 (by decide) (by decide) (by decide) (by decide) (by decide) (by decide)
      (by decide) (by decide)⟩

/-! ## Lemmas on the trace up to a fault -/

theorem sendRepeatsRun_result (gap data nbits repeat_ : Nat) :
    ∀ (fuel i : Nat), (sendRepeatsRun gap data nbits repeat_ fuel i).result =
      sendRepeats gap data nbits repeat_ fuel i := by
  intro fuel
  induction fuel with
  | zero =>
    intro i
    unfold sendRepeatsRun sendRepeats
    split <;> rfl
  | succ f ih =>
    intro i
    rw [sendRepeatsRun, sendRepeats]
    by_cases hle : i ≤ repeat_
    · rw [if_pos hle, if_pos hle]
      cases hone : sendOnce gap data nbits with
      | error e => rfl
      | ok once =>
        have h := ih ((i + 1) % 2 ^ 16)
        simp only []
        rw [← h]
        unfold Run.result
        simp only []
        cases (sendRepeatsRun gap data nbits repeat_ f ((i + 1) % 2 ^ 16)).fault <;> rfl
    · rw [if_neg hle, if_neg hle]
      rfl

theorem sendManchesterRun_result (gap fuel data nbits repeat_ : Nat) :
    (sendManchesterRun gap fuel data nbits repeat_).result =
      sendManchester gap fuel data nbits repeat_ := by
  unfold sendManchesterRun sendManchester
  by_cases h : nbits > kDataBits
  · rw [if_pos h, if_pos h]
    rfl
  · rw [if_neg h, if_neg h, ← sendRepeatsRun_result]
    unfold Run.result
    simp only []
    cases (sendRepeatsRun gap data nbits repeat_ fuel 0).fault <;> rfl

theorem pulsesOf_append (xs ys : List Event) :
    pulsesOf (xs ++ ys) = pulsesOf xs ++ pulsesOf ys := by
  unfold pulsesOf
  rw [List.filter_append]

theorem pulsesOf_bitPulses (data mask : Nat) :
    pulsesOf (bitPulses data mask) = bitPulses data mask := by
  unfold bitPulses
  split <;> rfl

theorem pulsesOf_sendData (data : Nat) :
    ∀ (fuel mask : Nat) (out : List Event), sendData data fuel mask = .ok out →
      pulsesOf out = out := by
  intro fuel
  induction fuel with
  | zero =>
    intro mask out h
    unfold sendData at h
    split at h
    · cases h
    · cases h
      rfl
  | succ f ih =>
    intro mask out h
    rw [sendData] at h
    by_cases hm : mask ≠ 0
    · rw [if_pos hm] at h
      cases hrec : sendData data f (mask >>> 1) with
      | error e =>
        rw [hrec] at h
        cases h
      | ok rest =>
        rw [hrec] at h
        cases h
        rw [pulsesOf_append, pulsesOf_bitPulses, ih _ _ hrec]
    · rw [if_neg hm] at h
      cases h
      rfl

theorem pulsesOf_sendOnce (gap data nbits : Nat) (once : List Event)
    (h : sendOnce gap data nbits = .ok once) : pulsesOf once = once := by
  unfold sendOnce at h
  cases hs : shl64 1 ((nbits : Int) - 1) with
  | error e =>
    rw [hs] at h
    cases h
  | ok mask =>
    rw [hs] at h
    simp only [] at h
    cases hd : sendData data kDataBits mask with
    | error e =>
      rw [hd] at h
      cases h
    | ok pulses =>
      rw [hd] at h
      cases h
      rw [pulsesOf_append, pulsesOf_sendData data _ _ _ hd]
      rfl

theorem pulsesOf_sendRepeatsRun (gap data nbits repeat_ : Nat) :
    ∀ (fuel i : Nat), pulsesOf (sendRepeatsRun gap data nbits repeat_ fuel i).emitted =
      (sendRepeatsRun gap data nbits repeat_ fuel i).emitted := by
  intro fuel
  induction fuel with
  | zero =>
    intro i
    unfold sendRepeatsRun
    split <;> rfl
  | succ f ih =>
    intro i
    rw [sendRepeatsRun]
    by_cases hle : i ≤ repeat_
    · rw [if_pos hle]
      cases hone : sendOnce gap data nbits with
      | error e => rfl
      | ok once =>
        simp only []
        rw [pulsesOf_append, pulsesOf_sendOnce gap data nbits once hone, ih]
    · rw [if_neg hle]
      rfl

theorem countP_isEnable_pulsesOf (xs : List Event) :
    (pulsesOf xs).countP isEnable = 0 := by
  induction xs with
  | nil => rfl
  | cons e rest ih =>
    unfold pulsesOf at ih ⊢
    cases e with
    | enableIROut f d => rw [List.filter_cons_of_neg (by simp)]; exact ih
    | mark u =>
      rw [List.filter_cons_of_pos (by simp), List.countP_cons_of_neg _ _ (by simp [isEnable])]
      exact ih
    | space u =>
      rw [List.filter_cons_of_pos (by simp), List.countP_cons_of_neg _ _ (by simp [isEnable])]
      exact ih

theorem sendOnce_zero_width (gap data : Nat) :
    sendOnce gap data 0 = .error .undefinedShift := by
  unfold sendOnce
  rw [shl64_zero_width]

theorem sendRepeatsRun_max_repeat (gap data nbits : Nat) (h1 : 1 ≤ nbits) (h64 : nbits ≤ 64) :
    ∀ (fuel i : Nat), i < 2 ^ 16 →
      sendRepeatsRun gap data nbits 65535 fuel i =
        { emitted := transmissions gap data nbits fuel, fault := some .outOfFuel } := by
  intro fuel
  induction fuel with
  | zero =>
    intro i hi
    have hle : i ≤ 65535 := by norm_num at hi; omega
    unfold sendRepeatsRun
    rw [if_pos hle]
    rfl
  | succ f ih =>
    intro i hi
    have hle : i ≤ 65535 := by norm_num at hi; omega
    rw [sendRepeatsRun, if_pos hle, sendOnce_eq gap data nbits h1 h64]
    simp only [ih ((i + 1) % 2 ^ 16) (Nat.mod_lt _ (by norm_num))]
    rfl

/-- C11: for every data, every `nbits <= 64` and every repeat count, whatever a run of
`sendManchester` has emitted when it ends or is cut off is one `enableIROut(38, 25)` call
followed by mark and space pulses only: the carrier is set up exactly once, before every
pulse, and not again per bit or per transmission. The same holds of the trace of every
finished run. -/
theorem enableIROut_once_and_first (kManchesterMinGap fuel data nbits repeat_ : Nat)
    (h : nbits ≤ 64) :
    (sendManchesterRun kManchesterMinGap fuel data nbits repeat_).emitted =
        .enableIROut 38 25 ::
          pulsesOf (sendManchesterRun kManchesterMinGap fuel data nbits repeat_).emitted ∧
      (sendManchesterRun kManchesterMinGap fuel data nbits repeat_).emitted.countP isEnable = 1 ∧
      (sendManchesterRun kManchesterMinGap fuel data nbits repeat_).result =
        sendManchester kManchesterMinGap fuel data nbits repeat_ ∧
      ∀ trace, sendManchester kManchesterMinGap fuel data nbits repeat_ = .ok trace →
        trace = .enableIROut 38 25 :: pulsesOf trace ∧ trace.countP isEnable = 1 := by
  have hrun : (sendManchesterRun kManchesterMinGap fuel data nbits repeat_).emitted =
      .enableIROut 38 25 :: (sendRepeatsRun kManchesterMinGap data nbits repeat_ fuel 0).emitted := by
    unfold sendManchesterRun
    rw [if_neg (by unfold kDataBits; omega)]
    rfl
  have hp : pulsesOf (.enableIROut 38 25 ::
      (sendRepeatsRun kManchesterMinGap data nbits repeat_ fuel 0).emitted) =
      (sendRepeatsRun kManchesterMinGap data nbits repeat_ fuel 0).emitted := by
    have h := pulsesOf_sendRepeatsRun kManchesterMinGap data nbits repeat_ fuel 0
    unfold pulsesOf at h ⊢
    rw [List.filter_cons_of_neg (by simp), h]
  have hfirst : (sendManchesterRun kManchesterMinGap fuel data nbits repeat_).emitted =
      .enableIROut 38 25 ::
        pulsesOf (sendManchesterRun kManchesterMinGap fuel data nbits repeat_).emitted := by
    rw [hrun, hp]
  have hcount :
      (sendManchesterRun kManchesterMinGap fuel data nbits repeat_).emitted.countP isEnable = 1 := by
    rw [hfirst, List.countP_cons_of_pos _ _ (by rfl), countP_isEnable_pulsesOf]
  refine ⟨hfirst, hcount, sendManchesterRun_result _ _ _ _ _, ?_⟩
  intro trace ht
  have hres := sendManchesterRun_result kManchesterMinGap fuel data nbits repeat_
  rw [ht] at hres
  unfold Run.result at hres
  cases hf : (sendManchesterRun kManchesterMinGap fuel data nbits repeat_).fault with
  | some e =>
    rw [hf] at hres
    cases hres
  | none =>
    rw [hf] at hres
    simp only [Except.ok.injEq] at hres
    rw [← hres]
    exact ⟨hfirst, hcount⟩

theorem enableIROut_once_and_first_witness :
    4 ≤ 64 ∧
      ((sendManchesterRun 100000 2 0x5 4 1).emitted =
          .enableIROut 38 25 :: pulsesOf (sendManchesterRun 100000 2 0x5 4 1).emitted ∧
        (sendManchesterRun 100000 2 0x5 4 1).emitted.countP isEnable = 1 ∧
        (sendManchesterRun 100000 2 0x5 4 1).result = sendManchester 100000 2 0x5 4 1 ∧
        ∀ trace, sendManchester 100000 2 0x5 4 1 = .ok trace →
          trace = .enableIROut 38 25 :: pulsesOf trace ∧ trace.countP isEnable = 1) :=
  ⟨by decide, enableIROut_once_and_first 100000 2 0x5 4 1 (by decide)⟩

/-- C12, at `repeat = 65535`: after any number `fuel` of passes of the outer loop,
`sendManchester(0x5, 4, 65535)` has emitted `fuel` whole transmissions and its loop test
still holds; the loop is not left after 65536 transmissions, nor ever. -/
theorem sendManchester_max_repeat_keeps_sending (kManchesterMinGap fuel : Nat) :
    sendManchesterRun kManchesterMinGap fuel 0x5 4 65535 =
      { emitted := .enableIROut 38 25 :: transmissions kManchesterMinGap 0x5 4 fuel,
        fault := some .outOfFuel } := by
  unfold sendManchesterRun
  rw [if_neg (by decide)]
  simp only [sendRepeatsRun_max_repeat kManchesterMinGap 0x5 4 (by decide) (by decide) fuel 0
    (by decide)]
  rfl

/-- C19, at `nbits = 0`: the guard `nbits > 64` lets the width 0 through, and the first
pass of the loop evaluates `1ULL << (0 - 1)`, a shift by -1, which lies outside `0..63`
and is undefined; the run stops there, after the carrier set-up, with no mask and no
pulse. -/
theorem zero_width_passes_guard_and_shifts_by_minus_one :
    ¬ (0 > kDataBits) ∧
      shl64 1 (((0 : Nat) : Int) - 1) = .error .undefinedShift ∧
      (∀ kManchesterMinGap fuel data repeat_ : Nat,
        sendManchesterRun kManchesterMinGap (fuel + 1) data 0 repeat_ =
          { emitted := [.enableIROut 38 25], fault := some .undefinedShift }) ∧
      (∀ kManchesterMinGap fuel data repeat_ : Nat,
        sendManchester kManchesterMinGap (fuel + 1) data 0 repeat_ =
          .error .undefinedShift) := by
  have hrun : ∀ gap fuel data repeat_ : Nat,
      sendManchesterRun gap (fuel + 1) data 0 repeat_ =
        { emitted := [.enableIROut 38 25], fault := some .undefinedShift } := by
    intro gap fuel data repeat_
    unfold sendManchesterRun
    rw [if_neg (by decide), sendRepeatsRun, if_pos (Nat.zero_le _), sendOnce_zero_width]
    rfl
  refine ⟨by decide, by decide, hrun, ?_⟩
  intro gap fuel data repeat_
  rw [← sendManchesterRun_result, hrun]
  rfl

/-! ## One pass of the decoder's loop -/

theorem dataLoop_pass_one (getRC : RCReader) (results : decode_results) (fuel : Nat)
    (s : LoopState) (hle : s.offset ≤ results.rawlen)
    (h : (readPair getRC results s.offset s.used).1.level = kSpace ∧
      (readPair getRC results s.offset s.used).2.level = kMark) :
    dataLoop getRC results (fuel + 1) s =
      dataLoop getRC results fuel
        { offset := (readPair getRC results s.offset s.used).2.offset,
          used := (readPair getRC results s.offset s.used).2.used,
          data := ((s.data <<< 1) % 2 ^ 64) ||| 1,
          actual_bits := (s.actual_bits + 1) % 2 ^ 16,
          reads := s.reads + 2 } := by
  rw [dataLoop, if_pos hle]
  simp only [if_pos h]

theorem dataLoop_pass_zero (getRC : RCReader) (results : decode_results) (fuel : Nat)
    (s : LoopState) (hle : s.offset ≤ results.rawlen)
    (h : (readPair getRC results s.offset s.used).1.level = kMark ∧
      (readPair getRC results s.offset s.used).2.level = kSpace) :
    dataLoop getRC results (fuel + 1) s =
      dataLoop getRC results fuel
        { offset := (readPair getRC results s.offset s.used).2.offset,
          used := (readPair getRC results s.offset s.used).2.used,
          data := (s.data <<< 1) % 2 ^ 64,
          actual_bits := (s.actual_bits + 1) % 2 ^ 16,
          reads := s.reads + 2 } := by
  have hne : ¬ ((readPair getRC results s.offset s.used).1.level = kSpace ∧
      (readPair getRC results s.offset s.used).2.level = kMark) := by
    intro h1
    have := h.1.symm.trans h1.1
    exact absurd this (by decide)
  rw [dataLoop, if_pos hle]
  simp only [if_neg hne, if_pos h]

theorem dataLoop_pass_stop (getRC : RCReader) (results : decode_results) (fuel : Nat)
    (s : LoopState) (hle : s.offset ≤ results.rawlen)
    (h : ¬ validPair ((readPair getRC results s.offset s.used).1.level,
      (readPair getRC results s.offset s.used).2.level)) :
    dataLoop getRC results (fuel + 1) s =
      some { s with
        offset := (readPair getRC results s.offset s.used).2.offset,
        used := (readPair getRC results s.offset s.used).2.used,
        reads := s.reads + 2 } := by
  have h1 : ¬ ((readPair getRC results s.offset s.used).1.level = kSpace ∧
      (readPair getRC results s.offset s.used).2.level = kMark) := fun h1 => h (Or.inl h1)
  have h2 : ¬ ((readPair getRC results s.offset s.used).1.level = kMark ∧
      (readPair getRC results s.offset s.used).2.level = kSpace) := fun h2 => h (Or.inr h2)
  rw [dataLoop, if_pos hle]
  simp only [if_neg h1, if_neg h2]

theorem dataLoop_one_pair_of_one (fuel : Nat) :
    dataLoop getRClevel (freshResults [kSpace, kMark]) (fuel + 2)
        { offset := 0, used := 0, data := 0, actual_bits := 0, reads := 0 } =
      some { offset := 2, used := 2, data := 1, actual_bits := 1, reads := 4 } := by
  rw [dataLoop_pass_one _ _ _ _ (by decide) (by decide),
    dataLoop_pass_stop _ _ _ _ (by decide) (by decide)]
  rfl

theorem dataLoop_one_pair_of_zero (fuel : Nat) :
    dataLoop getRClevel (freshResults [kMark, kSpace]) (fuel + 2)
        { offset := 0, used := 0, data := 0, actual_bits := 0, reads := 0 } =
      some { offset := 2, used := 2, data := 0, actual_bits := 1, reads := 4 } := by
  rw [dataLoop_pass_zero _ _ _ _ (by decide) (by decide),
    dataLoop_pass_stop _ _ _ _ (by decide) (by decide)]
  rfl

/-- C13: for a 1 bit the encoder emits (SPACE, MARK) and for a 0 bit (MARK, SPACE), each
pulse one tick long; the two pairs differ; a pass of the decoder's loop that reads
(SPACE, MARK) shifts a 1 into the accumulator, one that reads (MARK, SPACE) shifts a 0
in, and one that reads any other pair stops the loop with the accumulator and bit count
as they were; so decoding the pair the encoder emits for a bit gives that one bit. -/
theorem encoder_and_decoder_pairs_match :
    (∀ data mask : Nat, data &&& mask ≠ 0 →
      bitPulses data mask = [.space kManchesterTick, .mark kManchesterTick] ∧
        (bitPulses data mask).map classify = [kSpace, kMark]) ∧
    (∀ data mask : Nat, data &&& mask = 0 →
      bitPulses data mask = [.mark kManchesterTick, .space kManchesterTick] ∧
        (bitPulses data mask).map classify = [kMark, kSpace]) ∧
    ([kSpace, kMark] ≠ [kMark, kSpace]) ∧
    (∀ (getRC : RCReader) (results : decode_results) (fuel : Nat) (s : LoopState),
      s.offset ≤ results.rawlen →
      ((readPair getRC results s.offset s.used).1.level = kSpace ∧
          (readPair getRC results s.offset s.used).2.level = kMark →
        dataLoop getRC results (fuel + 1) s =
          dataLoop getRC results fuel
            { offset := (readPair getRC results s.offset s.used).2.offset,
              used := (readPair getRC results s.offset s.used).2.used,
              data := ((s.data <<< 1) % 2 ^ 64) ||| 1,
              actual_bits := (s.actual_bits + 1) % 2 ^ 16,
              reads := s.reads + 2 }) ∧
      ((readPair getRC results s.offset s.used).1.level = kMark ∧
          (readPair getRC results s.offset s.used).2.level = kSpace →
        dataLoop getRC results (fuel + 1) s =
          dataLoop getRC results fuel
            { offset := (readPair getRC results s.offset s.used).2.offset,
              used := (readPair getRC results s.offset s.used).2.used,
              data := (s.data <<< 1) % 2 ^ 64,
              actual_bits := (s.actual_bits + 1) % 2 ^ 16,
              reads := s.reads + 2 }) ∧
      (¬ validPair ((readPair getRC results s.offset s.used).1.level,
            (readPair getRC results s.offset s.used).2.level) →
        dataLoop getRC results (fuel + 1) s =
          some { s with
            offset := (readPair getRC results s.offset s.used).2.offset,
            used := (readPair getRC results s.offset s.used).2.used,
            reads := s.reads + 2 })) ∧
    (∀ data mask fuel : Nat,
      dataLoop getRClevel (freshResults ((bitPulses data mask).map classify)) (fuel + 2)
          { offset := 0, used := 0, data := 0, actual_bits := 0, reads := 0 } =
        some { offset := 2, used := 2, data := if data &&& mask ≠ 0 then 1 else 0,
               actual_bits := 1, reads := 4 }) := by
  have hone : ∀ data mask : Nat, data &&& mask ≠ 0 →
      bitPulses data mask = [.space kManchesterTick, .mark kManchesterTick] ∧
        (bitPulses data mask).map classify = [kSpace, kMark] := by
    intro data mask h
    unfold bitPulses
    rw [if_pos h]
    exact ⟨rfl, by decide⟩
  have hzero : ∀ data mask : Nat, data &&& mask = 0 →
      bitPulses data mask = [.mark kManchesterTick, .space kManchesterTick] ∧
        (bitPulses data mask).map classify = [kMark, kSpace] := by
    intro data mask h
    unfold bitPulses
    rw [if_neg (fun hne => hne h)]
    exact ⟨rfl, by decide⟩
  refine ⟨hone, hzero, by decide, ?_, ?_⟩
  · intro getRC results fuel s hle
    exact ⟨dataLoop_pass_one getRC results fuel s hle,
      dataLoop_pass_zero getRC results fuel s hle,
      dataLoop_pass_stop getRC results fuel s hle⟩
  · intro data mask fuel
    by_cases h : data &&& mask ≠ 0
    · rw [(hone data mask h).2, if_pos h]
      exact dataLoop_one_pair_of_one fuel
    · have h0 : data &&& mask = 0 := Classical.not_not.mp h
      rw [(hzero data mask h0).2, if_neg h]
      exact dataLoop_one_pair_of_zero fuel

/-! ## Bound on the number of pairs the modelled reader yields -/

theorem validPair_getRClevel_inside (results : decode_results) (offset used : Nat)
    (hv : validPair ((readPair getRClevel results offset used).1.level,
      (readPair getRClevel results offset used).2.level)) :
    offset < results.rawlen := by
  by_contra h
  rw [readPair_past_end results offset used (by omega)] at hv
  exact not_validPair_same kSpace hv

theorem readPair_getRClevel_straddle (results : decode_results) (offset used : Nat)
    (h : offset + 1 = results.rawlen) :
    (readPair getRClevel results offset used).2.offset = results.rawlen ∧
      (readPair getRClevel results offset used).2.level = kSpace := by
  unfold readPair
  simp only [getRClevel_inside results offset used _ _ _ _ (by omega)]
  rw [getRClevel_past_end results (offset + 1) _ _ _ _ _ (by omega)]
  exact ⟨h, rfl⟩

theorem cursorAfter_getRClevel_valid (results : decode_results) (offset used : Nat) :
    ∀ j, (∀ i, i < j → decodesAt getRClevel results offset used i) →
      j = 0 ∨ (offset + 2 * j ≤ results.rawlen + 1 ∧
        (cursorAfter getRClevel results offset used j).1 = min (offset + 2 * j) results.rawlen) := by
  intro j
  induction j with
  | zero => intro _; exact Or.inl rfl
  | succ j ih =>
    intro hall
    right
    have hprev := ih (fun i hi => hall i (by omega))
    have hvalid := (hall j (by omega)).2
    have hin := validPair_getRClevel_inside results
      (cursorAfter getRClevel results offset used j).1
      (cursorAfter getRClevel results offset used j).2 hvalid
    have hcur : (cursorAfter getRClevel results offset used j).1 = offset + 2 * j := by
      rcases hprev with h0 | ⟨_, hmin⟩
      · subst h0
        rfl
      · rw [hmin] at hin ⊢
        omega
    rw [hcur] at hin
    rw [cursorAfter]
    simp only []
    by_cases h2 : offset + 2 * j + 2 ≤ results.rawlen
    · rw [readPair_inside results _ _ (by rw [hcur]; exact h2), hcur]
      simp only []
      omega
    · have hs := (readPair_getRClevel_straddle results
        (cursorAfter getRClevel results offset used j).1
        (cursorAfter getRClevel results offset used j).2 (by rw [hcur]; omega)).1
      rw [hs]
      omega

theorem leadingValid_getRClevel_bound (results : decode_results) (offset k : Nat)
    (hk : leadingValid getRClevel results offset k) :
    2 * k ≤ (results.rawlen - offset) + 1 := by
  rcases cursorAfter_getRClevel_valid results offset 0 k hk.1 with h0 | ⟨hb, _⟩
  · omega
  · omega

/-- C14, as stated, fails: `fifteenSymbols` holds seven valid pairs and a final MARK. The
eighth pair read is that MARK and the SPACE read past the end, a valid (MARK, SPACE), so
eight bits are decoded from fifteen samples, more than half of them, and the decode
succeeds for `nbits = 8`. -/
theorem final_mark_pairs_with_space_past_the_end :
    (freshResults fifteenSymbols).rawlen = 15 ∧
      pairAt getRClevel (freshResults fifteenSymbols) 0 0 7 = (kMark, kSpace) ∧
      validPair (pairAt getRClevel (freshResults fifteenSymbols) 0 0 7) ∧
      ¬ (2 * 8 ≤ 15) ∧
      decodeManchester 8 getRClevel 10 (freshResults fifteenSymbols) 0 8 false =
        some
          { ok := true
            results :=
              { decode_type := .MANCHESTER, value := 0xAC, address := 0xC, command := 0xA,
                bits := 8, repeat_ := false, rawbuf := fifteenSymbols, rawlen := 15 }
            reads := 18 } := by
  decide

/-- C14, amended: with the reader modelled from the spec (a read at or past `rawlen`
returns SPACE), for every sample buffer of fewer than `2 ^ 16` samples and every start
offset the data loop of `decodeManchester` terminates, at the first pair that is invalid
or read with the cursor beyond `rawlen`, after one pass over the samples (at most
`2 * k + 2` reads), and the number `k` of bits it decodes is at most half the number of
samples available from the offset, rounded up: `2 * k <= (rawlen - offset) + 1`. A
MARK in the last sample and the SPACE read past the end form a valid pair. -/
theorem dataLoop_is_one_bounded_pass (results : decode_results) (offset : Nat)
    (hr : results.rawlen < 2 ^ 16) :
    (∀ o used a b c d : Nat, results.rawlen ≤ o →
      (getRClevel results o used a b c d).level = kSpace) ∧
    ∃ k, leadingValid getRClevel results offset k ∧
      2 * k ≤ (results.rawlen - offset) + 1 ∧
      ∀ fuel, k < fuel →
        ∃ s1, dataLoop getRClevel results fuel
            { offset := offset, used := 0, data := 0, actual_bits := 0, reads := 0 } = some s1 ∧
          s1.actual_bits = k ∧ s1.reads ≤ 2 * k + 2 := by
  refine ⟨fun o used a b c d h => by rw [getRClevel_past_end results o used a b c d h], ?_⟩
  obtain ⟨k, _, hk⟩ := getRClevel_leadingValid_exists results offset
  have hbound := leadingValid_getRClevel_bound results offset k hk
  refine ⟨k, hk, hbound, ?_⟩
  intro fuel hf
  obtain ⟨s1, hrun, _, hbits, hreads⟩ := dataLoop_init getRClevel results fuel offset k hk hf
  refine ⟨s1, hrun, ?_, ?_⟩
  · rw [hbits]
    apply Nat.mod_eq_of_lt
    norm_num at hr ⊢
    omega
  · rw [hreads]
    split <;> omega

theorem dataLoop_is_one_bounded_pass_witness :
    (freshResults fifteenSymbols).rawlen < 2 ^ 16 ∧
      ((∀ o used a b c d : Nat, (freshResults fifteenSymbols).rawlen ≤ o →
        (getRClevel (freshResults fifteenSymbols) o used a b c d).level = kSpace) ∧
      ∃ k, leadingValid getRClevel (freshResults fifteenSymbols) 0 k ∧
        2 * k ≤ ((freshResults fifteenSymbols).rawlen - 0) + 1 ∧
        ∀ fuel, k < fuel →
          ∃ s1, dataLoop getRClevel (freshResults fifteenSymbols) fuel
              { offset := 0, used := 0, data := 0, actual_bits := 0, reads := 0 } = some s1 ∧
            s1.actual_bits = k ∧ s1.reads ≤ 2 * k + 2) :=
  ⟨by decide, dataLoop_is_one_bounded_pass (freshResults fifteenSymbols) 0 (by decide)⟩

/-! ## Successful decodes -/

theorem decodeManchester_ok_inv (kManchesterBits : Nat) (getRC : RCReader) (fuel : Nat)
    (results : decode_results) (offset nbits : Nat) (strict : Bool) (k : Nat)
    (out : DecodeOutcome)
    (hk : leadingValid getRC results offset k) (hf : k < fuel)
    (h : decodeManchester kManchesterBits getRC fuel results offset nbits strict = some out)
    (hok : out.ok = true) :
    out.results.value = msbFirst (bitAt getRC results offset 0) k % 2 ^ 64 ∧
      out.results.bits = k % 2 ^ 16 ∧ nbits ≤ out.results.bits := by
  by_cases hlen : results.rawlen ≤ kManchesterMinSamples + offset
  · unfold decodeManchester at h
    rw [if_pos hlen] at h
    cases h
    cases hok
  · by_cases hw : strict = true ∧ nbits ≠ kManchesterBits
    · unfold decodeManchester at h
      rw [if_neg hlen, if_pos hw] at h
      cases h
      cases hok
    · obtain ⟨s1, hrun, hdata, hbits, _⟩ := dataLoop_init getRC results fuel offset k hk hf
      rw [decodeManchester_after_loop kManchesterBits getRC fuel results offset nbits strict
        s1 hlen hw hrun] at h
      by_cases h1 : s1.actual_bits < nbits
      · rw [if_pos h1] at h
        cases h
        cases hok
      · by_cases h2 : strict = true ∧ s1.actual_bits ≠ kManchesterBits
        · rw [if_neg h1, if_pos h2] at h
          cases h
          cases hok
        · rw [if_neg h1, if_neg h2] at h
          cases h
          exact ⟨hdata, hbits, by simp only []; omega⟩

theorem msbFirst_split (b : Nat → Nat) (m : Nat) :
    ∀ n, msbFirst b (m + n) = msbFirst b m * 2 ^ n + msbFirst (fun i => b (i + m)) n := by
  intro n
  induction n with
  | zero => simp [msbFirst]
  | succ n ih =>
    rw [← Nat.add_assoc, msbFirst_succ_right, ih, msbFirst_succ_right, Nat.pow_succ,
      Nat.add_comm n m]
    ring

theorem msbFirst_mod_last (b : Nat → Nat) (hb : ∀ i, b i ≤ 1) (k : Nat) (h : 64 ≤ k) :
    msbFirst b k % 2 ^ 64 = msbFirst (fun i => b (i + (k - 64))) 64 := by
  have hsplit := msbFirst_split b (k - 64) 64
  rw [show k - 64 + 64 = k by omega] at hsplit
  have hlt := msbFirst_lt (fun i => b (i + (k - 64))) (fun i => hb _) 64
  rw [hsplit, Nat.add_comm, Nat.add_mul_mod_self_right, Nat.mod_eq_of_lt hlt]

/-- C15: in lenient mode, for every capture that passes the minimum-sample check and
whose leading valid pairs number `k > nbits` (`k < 2 ^ 16`), `decodeManchester` succeeds
and reports `bits = k`, not `nbits`, with `value` built from all `k` bits (modulo
`2 ^ 64`). In either mode every successful decode has `bits >= nbits`, and `bits = nbits`
only when pair number `nbits + 1` is invalid or lies past the end of the samples. -/
theorem decodeManchester_does_not_stop_at_nbits (kManchesterBits : Nat) (getRC : RCReader)
    (fuel : Nat) (results : decode_results) (offset nbits k : Nat)
    (hk : leadingValid getRC results offset k) (hk16 : k < 2 ^ 16) (hf : k < fuel)
    (hlen : results.rawlen > kManchesterMinSamples + offset) :
    (nbits < k →
      ∃ out, decodeManchester kManchesterBits getRC fuel results offset nbits false =
          some out ∧
        out.ok = true ∧ out.results.bits = k ∧
        out.results.value = msbFirst (bitAt getRC results offset 0) k % 2 ^ 64) ∧
    (∀ (strict : Bool) (out : DecodeOutcome),
      decodeManchester kManchesterBits getRC fuel results offset nbits strict = some out →
      out.ok = true →
      out.results.bits ≥ nbits ∧
        (out.results.bits = nbits → ¬ decodesAt getRC results offset 0 nbits)) := by
  refine ⟨?_, ?_⟩
  · intro hgt
    obtain ⟨s1, hrun, hdata, hbits, _⟩ := dataLoop_init getRC results fuel offset k hk hf
    rw [Nat.mod_eq_of_lt hk16] at hbits
    have hdec := decodeManchester_after_loop kManchesterBits getRC fuel results offset nbits
      false s1 (by omega) (fun h => Bool.false_ne_true h.1) hrun
    rw [if_neg (by omega), if_neg (fun h => Bool.false_ne_true h.1)] at hdec
    exact ⟨_, hdec, rfl, hbits, hdata⟩
  · intro strict out h hok
    obtain ⟨_, hbits, hge⟩ := decodeManchester_ok_inv kManchesterBits getRC fuel results offset
      nbits strict k out hk hf h hok
    rw [Nat.mod_eq_of_lt hk16] at hbits
    refine ⟨hge, fun heq => ?_⟩
    have hkn : k = nbits := by omega
    rw [← hkn]
    exact hk.2

theorem decodeManchester_does_not_stop_at_nbits_witness :
    leadingValid getRClevel staleResults 0 7 ∧ 7 < 2 ^ 16 ∧ 7 < 9 ∧
      staleResults.rawlen > kManchesterMinSamples + 0 ∧
      ((5 < 7 →
        ∃ out, decodeManchester 12 getRClevel 9 staleResults 0 5 false = some out ∧
          out.ok = true ∧ out.results.bits = 7 ∧
          out.results.value = msbFirst (bitAt getRClevel staleResults 0 0) 7 % 2 ^ 64) ∧
      (∀ (strict : Bool) (out : DecodeOutcome),
        decodeManchester 12 getRClevel 9 staleResults 0 5 strict = some out →
        out.ok = true →
        out.results.bits ≥ 5 ∧
          (out.results.bits = 5 → ¬ decodesAt getRClevel staleResults 0 0 5))) :=
  ⟨by decide, by decide, by decide, by decide,
    decodeManchester_does_not_stop_at_nbits 12 getRClevel 9 staleResults 0 5 7 (by decide)
      (by decide) (by decide) (by decide)⟩

/-- C16: when `decodeManchester` succeeds after reading `k` leading valid pairs with
`64 < k < 2 ^ 16`, `results.value` is the most-significant-first value of the `k` bits
modulo `2 ^ 64`, which is the value of the last 64 bits alone: the first `k - 64` bits
are lost. `results.bits` still reports `k`. -/
theorem decodeManchester_accumulator_wraps (kManchesterBits : Nat) (getRC : RCReader)
    (fuel : Nat) (results : decode_results) (offset nbits : Nat) (strict : Bool) (k : Nat)
    (out : DecodeOutcome)
    (hk : leadingValid getRC results offset k) (h64 : 64 < k) (hk16 : k < 2 ^ 16)
    (hf : k < fuel)
    (h : decodeManchester kManchesterBits getRC fuel results offset nbits strict = some out)
    (hok : out.ok = true) :
    out.results.value = msbFirst (bitAt getRC results offset 0) k % 2 ^ 64 ∧
      out.results.value =
        msbFirst (fun i => bitAt getRC results offset 0 (i + (k - 64))) 64 ∧
      out.results.bits = k := by
  obtain ⟨hvalue, hbits, _⟩ := decodeManchester_ok_inv kManchesterBits getRC fuel results
    offset nbits strict k out hk hf h hok
  rw [Nat.mod_eq_of_lt hk16] at hbits
  refine ⟨hvalue, ?_, hbits⟩
  rw [hvalue]
  exact msbFirst_mod_last _ (bitAt_le_one getRC results offset 0) k (by omega)

set_option maxRecDepth 100000 in
theorem decodeManchester_accumulator_wraps_witness :
    leadingValid getRClevel (freshResults (oneThenZeros 64)) 0 65 ∧ 64 < 65 ∧ 65 < 2 ^ 16 ∧
      65 < 66 ∧
      decodeManchester 12 getRClevel 66 (freshResults (oneThenZeros 64)) 0 65 false =
        some sixtyFiveBitDecoded ∧
      sixtyFiveBitDecoded.ok = true ∧
      (sixtyFiveBitDecoded.results.value =
          msbFirst (bitAt getRClevel (freshResults (oneThenZeros 64)) 0 0) 65 % 2 ^ 64 ∧
        sixtyFiveBitDecoded.results.value =
          msbFirst (fun i => bitAt getRClevel (freshResults (oneThenZeros 64)) 0 0
            (i + (65 - 64))) 64 ∧
        sixtyFiveBitDecoded.results.bits = 65) :=
  ⟨by decide, by decide, by decide, by decide, by decide, rfl,
    decodeManchester_accumulator_wraps 12 getRClevel 66 (freshResults (oneThenZeros 64)) 0 65
      false 65 sixtyFiveBitDecoded (by decide) (by decide) (by decide) (by decide) (by decide)
      rfl⟩

/-! ## The encoder reads only the low `nbits` bits -/

theorem manchesterBits_mod (data n : Nat) :
    ∀ m, m ≤ n → manchesterBits (data % 2 ^ n) m = manchesterBits data m := by
  intro m
  induction m with
  | zero => intro _; rfl
  | succ m ih =>
    intro hm
    rw [manchesterBits, manchesterBits, ih (by omega), Nat.testBit_mod_two_pow]
    have hlt : decide (m < n) = true := decide_eq_true (by omega)
    rw [hlt, Bool.true_and]

theorem sendOnce_mod (gap data nbits : Nat) (h1 : 1 ≤ nbits) (h64 : nbits ≤ 64) :
    sendOnce gap (data % 2 ^ nbits) nbits = sendOnce gap data nbits := by
  rw [sendOnce_eq gap _ nbits h1 h64, sendOnce_eq gap data nbits h1 h64]
  unfold transmission
  rw [manchesterBits_mod data nbits nbits (Nat.le_refl _)]

theorem sendRepeats_congr (gap d1 d2 nbits repeat_ : Nat)
    (h : sendOnce gap d1 nbits = sendOnce gap d2 nbits) :
    ∀ (fuel i : Nat), sendRepeats gap d1 nbits repeat_ fuel i =
      sendRepeats gap d2 nbits repeat_ fuel i := by
  intro fuel
  induction fuel with
  | zero => intro i; rfl
  | succ f ih =>
    intro i
    rw [sendRepeats, sendRepeats, h, ih]

theorem sendRepeatsRun_congr (gap d1 d2 nbits repeat_ : Nat)
    (h : sendOnce gap d1 nbits = sendOnce gap d2 nbits) :
    ∀ (fuel i : Nat), sendRepeatsRun gap d1 nbits repeat_ fuel i =
      sendRepeatsRun gap d2 nbits repeat_ fuel i := by
  intro fuel
  induction fuel with
  | zero => intro i; rfl
  | succ f ih =>
    intro i
    rw [sendRepeatsRun, sendRepeatsRun, h, ih]

/-- C17: for every data, every `nbits` with `1 <= nbits <= 64` and every repeat count,
`sendManchester(data, nbits, repeat)` does exactly what
`sendManchester(data mod 2 ^ nbits, nbits, repeat)` does: the same result, and the same
pulses emitted at every point of the run. Bits of `data` above `nbits` are ignored, not
rejected. -/
theorem sendManchester_ignores_high_bits (kManchesterMinGap fuel data nbits repeat_ : Nat)
    (h1 : 1 ≤ nbits) (h64 : nbits ≤ 64) :
    sendManchester kManchesterMinGap fuel data nbits repeat_ =
        sendManchester kManchesterMinGap fuel (data % 2 ^ nbits) nbits repeat_ ∧
      sendManchesterRun kManchesterMinGap fuel data nbits repeat_ =
        sendManchesterRun kManchesterMinGap fuel (data % 2 ^ nbits) nbits repeat_ := by
  have h := sendOnce_mod kManchesterMinGap data nbits h1 h64
  refine ⟨?_, ?_⟩
  · unfold sendManchester
    rw [sendRepeats_congr kManchesterMinGap _ _ nbits repeat_ h fuel 0]
  · unfold sendManchesterRun
    rw [sendRepeatsRun_congr kManchesterMinGap _ _ nbits repeat_ h fuel 0]

theorem sendManchester_ignores_high_bits_witness :
    1 ≤ 4 ∧ 4 ≤ 64 ∧
      (sendManchester 100000 2 0x1F5 4 1 = sendManchester 100000 2 (0x1F5 % 2 ^ 4) 4 1 ∧
        sendManchesterRun 100000 2 0x1F5 4 1 =
          sendManchesterRun 100000 2 (0x1F5 % 2 ^ 4) 4 1) :=
  ⟨by decide, by decide, sendManchester_ignores_high_bits 100000 2 0x1F5 4 1 (by decide)
    (by decide)⟩

/-! ## Pulse counts -/

theorem carrierOnTime_append (xs ys : List Event) :
    carrierOnTime (xs ++ ys) = carrierOnTime xs + carrierOnTime ys := by
  induction xs with
  | nil => simp [carrierOnTime]
  | cons e rest ih =>
    cases e with
    | enableIROut f d => simpa [carrierOnTime] using ih
    | mark u =>
      show u + carrierOnTime (rest ++ ys) = u + carrierOnTime rest + carrierOnTime ys
      rw [ih]
      omega
    | space u => simpa [carrierOnTime] using ih

/-- A measure of traces that adds up over concatenation takes, on `count` transmissions
of `nbits` bits, the value `count * (nbits * p + q)`, where `p` is its value on the pair
of a bit (the same for both bits) and `q` its value on the gap. -/
theorem measure_transmissions (f : List Event → Nat) (gap p q : Nat)
    (hnil : f [] = 0) (happ : ∀ xs ys, f (xs ++ ys) = f xs + f ys)
    (hpair : ∀ b, f (bitPair b) = p) (hgap : f [.space gap] = q) (data nbits : Nat) :
    f (manchesterBits data nbits) = nbits * p ∧
      ∀ count, f (transmissions gap data nbits count) = count * (nbits * p + q) := by
  have hbits : ∀ n, f (manchesterBits data n) = n * p := by
    intro n
    induction n with
    | zero => simpa [manchesterBits] using hnil
    | succ n ih =>
      rw [manchesterBits, happ, hpair, ih]
      ring
  refine ⟨hbits nbits, ?_⟩
  intro count
  induction count with
  | zero => simpa [transmissions] using hnil
  | succ count ih =>
    rw [transmissions, transmission, happ, happ, hbits, hgap, ih]
    ring

/-- C18: for every data, every `nbits` with `1 <= nbits <= 64` and every repeat count
`r < 65535`, the finished trace of `sendManchester` is the carrier set-up followed by
`r + 1` blocks, each made of `2 * nbits` one-tick pulses (`nbits` marks and `nbits`
spaces) and one gap space. It has `(r + 1) * (2 * nbits + 1)` pulses: `(r + 1) * nbits`
marks, all one tick long, and `(r + 1) * nbits + (r + 1)` spaces, of which, when the gap
length differs from the tick, `(r + 1) * nbits` are one tick long and `r + 1` are gaps.
The carrier is on for `(r + 1) * nbits * kManchesterTick` in total. None of these
numbers depends on the data. -/
theorem pulse_counts_do_not_depend_on_data (kManchesterMinGap fuel data nbits r : Nat)
    (h1 : 1 ≤ nbits) (h64 : nbits ≤ 64) (hr : r < 65535) (hf : r < fuel) :
    ∃ trace, sendManchester kManchesterMinGap fuel data nbits r = .ok trace ∧
      trace = .enableIROut 38 25 :: transmissions kManchesterMinGap data nbits (r + 1) ∧
      (manchesterBits data nbits).length = 2 * nbits ∧
      (manchesterBits data nbits).count (.mark kManchesterTick) = nbits ∧
      (manchesterBits data nbits).count (.space kManchesterTick) = nbits ∧
      (pulsesOf trace).length = (r + 1) * (2 * nbits + 1) ∧
      trace.countP isMark = (r + 1) * nbits ∧
      trace.count (.mark kManchesterTick) = (r + 1) * nbits ∧
      trace.countP isSpace = (r + 1) * nbits + (r + 1) ∧
      (kManchesterMinGap ≠ kManchesterTick →
        trace.count (.space kManchesterTick) = (r + 1) * nbits ∧
          trace.count (.space kManchesterMinGap) = r + 1) ∧
      carrierOnTime trace = (r + 1) * nbits * kManchesterTick := by
  have hlen := measure_transmissions List.length kManchesterMinGap 2 1 rfl
    (fun xs ys => List.length_append xs ys) (fun b => by cases b <;> rfl) rfl data nbits
  have hmarkP := measure_transmissions (List.countP isMark) kManchesterMinGap 1 0 rfl
    (fun xs ys => List.countP_append isMark xs ys) (fun b => by cases b <;> rfl) rfl data nbits
  have hmark := measure_transmissions (List.count (.mark kManchesterTick)) kManchesterMinGap 1 0
    rfl (fun xs ys => List.count_append _ xs ys) (fun b => by cases b <;> decide)
    (by simp [List.count_singleton]) data nbits
  have hspaceP := measure_transmissions (List.countP isSpace) kManchesterMinGap 1 1 rfl
    (fun xs ys => List.countP_append isSpace xs ys) (fun b => by cases b <;> rfl) rfl data nbits
  have hspaceBits : (manchesterBits data nbits).count (.space kManchesterTick) = nbits := by
    have h := (measure_transmissions (List.count (.space kManchesterTick)) kManchesterTick 1 1
      rfl (fun xs ys => List.count_append _ xs ys) (fun b => by cases b <;> decide)
      (by simp [List.count_singleton]) data nbits).1
    omega
  have hon := measure_transmissions carrierOnTime kManchesterMinGap kManchesterTick 0 rfl
    carrierOnTime_append (fun b => by cases b <;> rfl) rfl data nbits
  refine ⟨_, sendManchester_eq kManchesterMinGap fuel data nbits r h1 h64 hr hf, rfl,
    manchesterBits_length data nbits, by have := hmark.1; omega, hspaceBits, ?_, ?_, ?_, ?_, ?_,
    ?_⟩
  · have hp : pulsesOf (.enableIROut frequency dutyCycle ::
        transmissions kManchesterMinGap data nbits (r + 1)) =
        transmissions kManchesterMinGap data nbits (r + 1) := by
      have h := pulsesOf_transmissions kManchesterMinGap data nbits (r + 1)
      unfold pulsesOf at h ⊢
      rw [List.filter_cons_of_neg (by simp), h]
    rw [hp, hlen.2]
    ring
  · rw [List.countP_cons_of_neg _ _ (by simp [isMark]), hmarkP.2]
    ring
  · rw [List.count_cons_of_ne (by simp), hmark.2]
    ring
  · rw [List.countP_cons_of_neg _ _ (by simp [isSpace]), hspaceP.2]
    ring
  · intro hne
    have htick := (measure_transmissions (List.count (.space kManchesterTick))
      kManchesterMinGap 1 0 rfl (fun xs ys => List.count_append _ xs ys)
      (fun b => by cases b <;> decide) (by simp [List.count_singleton, hne]) data nbits).2
      (r + 1)
    have hgap := (measure_transmissions (List.count (.space kManchesterMinGap))
      kManchesterMinGap 0 1 rfl (fun xs ys => List.count_append _ xs ys)
      (fun b => by cases b <;> simp [bitPair, hne]) (by simp [List.count_singleton]) data
      nbits).2 (r + 1)
    refine ⟨?_, ?_⟩
    · rw [List.count_cons_of_ne (by simp), htick]
      ring
    · rw [List.count_cons_of_ne (by simp), hgap]
      ring
  · show carrierOnTime (transmissions kManchesterMinGap data nbits (r + 1)) = _
    rw [hon.2]
    ring

theorem pulse_counts_do_not_depend_on_data_witness :
    1 ≤ 4 ∧ 4 ≤ 64 ∧ 1 < 65535 ∧ 1 < 2 ∧
      ∃ trace, sendManchester 100000 2 0x5 4 1 = .ok trace ∧
        trace = .enableIROut 38 25 :: transmissions 100000 0x5 4 (1 + 1) ∧
        (manchesterBits 0x5 4).length = 2 * 4 ∧
        (manchesterBits 0x5 4).count (.mark kManchesterTick) = 4 ∧
        (manchesterBits 0x5 4).count (.space kManchesterTick) = 4 ∧
        (pulsesOf trace).length = (1 + 1) * (2 * 4 + 1) ∧
        trace.countP isMark = (1 + 1) * 4 ∧
        trace.count (.mark kManchesterTick) = (1 + 1) * 4 ∧
        trace.countP isSpace = (1 + 1) * 4 + (1 + 1) ∧
        (100000 ≠ kManchesterTick →
          trace.count (.space kManchesterTick) = (1 + 1) * 4 ∧
            trace.count (.space 100000) = 1 + 1) ∧
        carrierOnTime trace = (1 + 1) * 4 * kManchesterTick :=
  ⟨by decide, by decide, by decide, by decide,
    pulse_counts_do_not_depend_on_data 100000 2 0x5 4 1 (by decide) (by decide) (by decide)
      (by decide)⟩

/-! ## The data loop never runs out of its 64 passes -/

theorem sendData_finishes (data : Nat) :
    ∀ (fuel mask : Nat), mask < 2 ^ fuel → ∃ out, sendData data fuel mask = .ok out := by
  intro fuel
  induction fuel with
  | zero =>
    intro mask h
    have h0 : mask = 0 := by simpa using h
    subst h0
    exact ⟨[], rfl⟩
  | succ f ih =>
    intro mask h
    rw [sendData]
    by_cases hm : mask ≠ 0
    · have hhalf : mask >>> 1 < 2 ^ f := by
        rw [Nat.shiftRight_eq_div_pow, Nat.pow_one]
        rw [Nat.pow_succ] at h
        omega
      obtain ⟨rest, hrest⟩ := ih (mask >>> 1) hhalf
      rw [if_pos hm, hrest]
      exact ⟨_, rfl⟩
    · rw [if_neg hm]
      exact ⟨_, rfl⟩

/-- The only fault a pass of the outer loop can end in is the undefined shift that opens
it; the data loop itself always finishes. -/
theorem sendOnce_fault (gap data nbits : Nat) (e : Fault)
    (h : sendOnce gap data nbits = .error e) : e = .undefinedShift := by
  unfold sendOnce at h
  unfold shl64 at h
  by_cases hs : 0 ≤ ((nbits : Int) - 1) ∧ ((nbits : Int) - 1) < 64
  · rw [if_pos hs] at h
    simp only [] at h
    obtain ⟨out, hout⟩ := sendData_finishes data kDataBits
      ((1 <<< ((nbits : Int) - 1).toNat) % 2 ^ 64) (Nat.mod_lt _ (by positivity))
    rw [hout] at h
    cases h
  · rw [if_neg hs] at h
    cases h
    rfl

end Manchester
